import Mathlib

/-!
Verification of the Pauker-Tool core (src/config.js) against its
natural-language specification.

The file shallowly embeds the relevant JavaScript functions:

* the randomization engine `GameBase._randomizePayload` and the
  sessionStorage branch of `GameBase._loadPayload` (game_base.js part),
* the local index builder `scanDir` (tools/update_index.js part),
* the flat-list index builder `buildTreeFromFlatList` and the
  `rebuildIndexFromGithub` filter (index.js part),
* the navigation-state transitions (`selectNode`, `toggleNode`,
  `setDrawer`, the drawer resizer) and `loadAppState`/`saveAppState`.

JSON values are modelled by `Val`.  Because the randomization engine works
on mutable JavaScript objects, object identity matters for the
non-mutation claims; we therefore run the engine on `TVal`, a copy of
`Val` in which every object and array node carries an identity tag
(a `Nat` modelling the heap address of the object).  Functional update of
a node keeps its tag (JavaScript in-place mutation preserves identity),
while every freshly allocated object or array receives a fresh tag from a
counter threaded through the computation.  `Math.random()` is modelled by
an explicit supply of naturals: `Math.floor(Math.random() * bound)` takes
the next supply element modulo `bound` (an arbitrary value in `[0, bound)`,
exactly the range the JavaScript expression can produce).
-/

/-- JSON scalar values.  JavaScript numbers are modelled by `Int`; the
claims under verification never depend on fractional values. -/
inductive Prim where
  | str (s : String)
  | num (n : Int)
  | boolean (b : Bool)
  | nullv
deriving DecidableEq

/-- Untagged JSON values (the shape of a parsed payload). -/
inductive Val where
  | prim (p : Prim)
  | arr (elems : List Val)
  | obj (fields : List (String × Val))

/-- Tagged JSON values: every object/array node carries an identity tag
modelling its heap address. -/
inductive TVal where
  | prim (p : Prim)
  | arr (tag : Nat) (elems : List TVal)
  | obj (tag : Nat) (fields : List (String × TVal))

mutual

/-- Erase identity tags, recovering the plain JSON value.  Two JavaScript
values are JSON-identical (byte-identical once serialized) iff their
`strip` images are equal. -/
def strip : TVal → Val
  | .prim p => .prim p
  | .arr _ l => .arr (stripArr l)
  | .obj _ l => .obj (stripFlds l)

def stripArr : List TVal → List Val
  | [] => []
  | v :: vs => strip v :: stripArr vs

def stripFlds : List (String × TVal) → List (String × Val)
  | [] => []
  | (k, v) :: vs => (k, strip v) :: stripFlds vs

end

mutual

/-- All identity tags occurring in a tagged value. -/
def tagsT : TVal → List Nat
  | .prim _ => []
  | .arr t l => t :: tagsArr l
  | .obj t l => t :: tagsFlds l

def tagsArr : List TVal → List Nat
  | [] => []
  | v :: vs => tagsT v ++ tagsArr vs

def tagsFlds : List (String × TVal) → List Nat
  | [] => []
  | (_, v) :: vs => tagsT v ++ tagsFlds vs

end

mutual

/-- Scalar leaves of a tagged value, in depth-first order.  The multiset
of leaves is the value content that shuffling may reorder but never
change. -/
def leavesT : TVal → List Prim
  | .prim p => [p]
  | .arr _ l => leavesArr l
  | .obj _ l => leavesFlds l

def leavesArr : List TVal → List Prim
  | [] => []
  | v :: vs => leavesT v ++ leavesArr vs

def leavesFlds : List (String × TVal) → List Prim
  | [] => []
  | (_, v) :: vs => leavesT v ++ leavesFlds vs

end

mutual

/-- True when the value contains no JSON `null` anywhere.  Accessing a
property of `null` throws in JavaScript; the engine is a total function,
so theorems about it are stated for null-free payloads, on which the
JavaScript code is guaranteed not to throw. -/
def noNullT : TVal → Bool
  | .prim .nullv => false
  | .prim _ => true
  | .arr _ l => noNullArr l
  | .obj _ l => noNullFlds l

def noNullArr : List TVal → Bool
  | [] => true
  | v :: vs => noNullT v && noNullArr vs

def noNullFlds : List (String × TVal) → Bool
  | [] => true
  | (_, v) :: vs => noNullT v && noNullFlds vs

end

mutual

/-- Boolean structural equality of untagged values (used to discharge
concrete disequalities; `DecidableEq` cannot be derived for this nested
inductive). -/
def valBeq : Val → Val → Bool
  | .prim p, .prim q => p == q
  | .arr l, .arr m => valBeqArr l m
  | .obj l, .obj m => valBeqFlds l m
  | _, _ => false

def valBeqArr : List Val → List Val → Bool
  | [], [] => true
  | v :: vs, w :: ws => valBeq v w && valBeqArr vs ws
  | _, _ => false

def valBeqFlds : List (String × Val) → List (String × Val) → Bool
  | [], [] => true
  | (k, v) :: vs, (k', w) :: ws => k == k' && (valBeq v w && valBeqFlds vs ws)
  | _, _ => false

end

/-- The state threaded through the randomization engine: the next fresh
identity tag, and the supply of random draws. -/
abbrev StR := Nat × List Nat

/-- Allocate a fresh identity tag. -/
def freshTag (st : StR) : Nat × StR := (st.1, (st.1 + 1, st.2))

/-- Model of `Math.floor(Math.random() * bound)`: take the next element of
the random supply, reduced modulo `bound` so the result lies in
`[0, bound)` just as the JavaScript expression does.  An exhausted supply
yields `0`. -/
def draw (bound : Nat) (st : StR) : Nat × StR :=
  match st.2 with
  | [] => (0, (st.1, []))
  | k :: ks => (k % bound, (st.1, ks))

/-- Swap the elements at positions `i` and `j` of a list, the effect of
`[copy[i], copy[j]] = [copy[j], copy[i]]`. -/
def swapL {α : Type} (a : List α) (i j : Nat) : List α :=
  match a[i]?, a[j]? with
  | some x, some y => (a.set i y).set j x
  | _, _ => a

/-- The Fisher-Yates loop of the source `shuffle`:
`for (let i = copy.length - 1; i > 0; i--) ... swap(copy, i, j)` where
`j = Math.floor(Math.random() * (i + 1))`.  The first argument of the
recursion is the current loop index. -/
def fyAux {α : Type} : List α → Nat → StR → List α × StR
  | a, 0, st => (a, st)
  | a, i + 1, st =>
    let (j, st') := draw (i + 2) st
    fyAux (swapL a (i + 1) j) i st'

/-- The source `shuffle` on the element list of an array: copy, then run
the Fisher-Yates loop from index `length - 1` down to `1`. -/
def shuffleL {α : Type} (a : List α) (st : StR) : List α × StR :=
  match a.length with
  | 0 => (a, st)
  | n + 1 => fyAux a n st

mutual

/-- Model of `JSON.parse(JSON.stringify(data))`: a structure-preserving
deep copy in which every object/array node receives a fresh identity tag
drawn from the counter. -/
def cloneFresh : TVal → Nat → TVal × Nat
  | .prim p, c => (.prim p, c)
  | .arr _ l, c =>
    let (l', c') := cloneArr l (c + 1)
    (.arr c l', c')
  | .obj _ l, c =>
    let (l', c') := cloneFlds l (c + 1)
    (.obj c l', c')

def cloneArr : List TVal → Nat → List TVal × Nat
  | [], c => ([], c)
  | v :: vs, c =>
    let (v', c') := cloneFresh v c
    let (vs', c'') := cloneArr vs c'
    (v' :: vs', c'')

def cloneFlds : List (String × TVal) → Nat → List (String × TVal) × Nat
  | [], c => ([], c)
  | (k, v) :: vs, c =>
    let (v', c') := cloneFresh v c
    let (vs', c'') := cloneFlds vs c'
    ((k, v') :: vs', c'')

end

/-- Property read on a tagged value: `v[k]`, `none` when the property is
absent or the value is not an object. -/
def lookupF : List (String × TVal) → String → Option TVal
  | [], _ => none
  | (k', v) :: t, k => if k' = k then some v else lookupF t k

def getField : TVal → String → Option TVal
  | .obj _ kvs, k => lookupF kvs k
  | _, _ => none

/-- Property write on the field list: replace the existing slot, or append
a new one (JavaScript assignment semantics on plain objects). -/
def setF : List (String × TVal) → String → TVal → List (String × TVal)
  | [], k, v => [(k, v)]
  | (k', v') :: t, k, v => if k' = k then (k', v) :: t else (k', v') :: setF t k v

/-- Property write `s[k] = v`.  The node keeps its identity tag: in-place
mutation does not change object identity.  Writes on non-objects are
no-ops here; the engine only ever writes fields of objects. -/
def setField : TVal → String → TVal → TVal
  | .obj t kvs, k, v => .obj t (setF kvs k v)
  | v, _, _ => v

/-- JavaScript truthiness of a JSON value. -/
def truthy : TVal → Bool
  | .prim .nullv => false
  | .prim (.boolean b) => b
  | .prim (.num n) => n != 0
  | .prim (.str s) => s ≠ ""
  | _ => true

/-- Model of `a || b` on possibly-absent property values (`none` models
`undefined`, which is falsy). -/
def jsOr (a b : Option TVal) : Option TVal :=
  match a with
  | some v => if truthy v then some v else b
  | none => b

/-- Strict string comparison `v === "name"` on a possibly-absent value. -/
def tyIs (o : Option TVal) (nm : String) : Bool :=
  match o with
  | some (.prim (.str s)) => s == nm
  | _ => false

/-- `Array.isArray` on a possibly-absent property value. -/
def isArr (o : Option TVal) : Bool :=
  match o with
  | some (.arr _ _) => true
  | _ => false

/-- Guard of `_randomizePayload`: `!data || typeof data !== "object"` is
false exactly for arrays and objects (`null` is caught by `!data`). -/
def isObjLike : TVal → Bool
  | .arr _ _ => true
  | .obj _ _ => true
  | _ => false

/-- The source `shuffle` applied to a property value: on an array it
allocates the copy (fresh tag) and permutes the elements, on anything
else it returns the argument unchanged (`if (!Array.isArray(arr)) return
arr`). -/
def shuffleVal (v : TVal) (st : StR) : TVal × StR :=
  match v with
  | .arr _ l =>
    let (t, st') := freshTag st
    let (l', st'') := shuffleL l st'
    (.arr t l', st'')
  | w => (w, st)

/-- Left-to-right effectful map, the evaluation order of `Array.map` with
a side-effecting callback. -/
def mapSt (f : TVal → StR → TVal × StR) : List TVal → StR → List TVal × StR
  | [], st => ([], st)
  | v :: vs, st =>
    let (v', st') := f v st
    let (vs', st'') := mapSt f vs st'
    (v' :: vs', st'')

/-- Model of `shuffle(x).map(f)`: shuffle (allocating the copy), then map
(allocating the result array).  Call sites guard `Array.isArray(x)`, so
the non-array fallthrough is unreachable there. -/
def shuffleMap (f : TVal → StR → TVal × StR) (v : TVal) (st : StR) : TVal × StR :=
  let (sv, st') := shuffleVal v st
  match sv with
  | .arr _ l =>
    let (t, st'') := freshTag st'
    let (l', st''') := mapSt f l st''
    (.arr t l', st''')
  | w => (w, st')

/-- Shared shape `if (Array.isArray(s.f)) s.f = op(s.f)`: shuffle-like
update of one array-valued property, a no-op when the property is absent
or not an array. -/
def updArrField (fieldName : String) (op : TVal → StR → TVal × StR)
    (s : TVal) (st : StR) : TVal × StR :=
  match getField s fieldName with
  | some (.arr t l) =>
    let (v', st') := op (.arr t l) st
    (setField s fieldName v', st')
  | _ => (s, st)

/-- Strict comparison `s.type === nm`. -/
def typeIs (s : TVal) (nm : String) : Bool := tyIs (getField s "type") nm

/-- Per-question transform of the quiz branch:
`q => { if (Array.isArray(q.options)) q.options = shuffle(q.options); return q }`. -/
def quizQ (q : TVal) (st : StR) : TVal × StR := updArrField "options" shuffleVal q st

/-- Per-row transform of the capital branch (same shape as `quizQ`). -/
def capRow (r : TVal) (st : StR) : TVal × StR := updArrField "options" shuffleVal r st

/-- First `if` of the `escape_game` section transform (the quiz case). -/
def escStep1 (s : TVal) (st : StR) : TVal × StR :=
  if typeIs s "quiz" then updArrField "questions" (shuffleMap quizQ) s st else (s, st)

/-- Second `if` (the sort case). -/
def escStep2 (p : TVal × StR) : TVal × StR :=
  if typeIs p.1 "sort" then updArrField "sortCards" shuffleVal p.1 p.2 else p

/-- Third `if` (the capital case). -/
def escStep3 (p : TVal × StR) : TVal × StR :=
  if typeIs p.1 "capital" then updArrField "rows" (shuffleMap capRow) p.1 p.2 else p

/-- Per-section transform of the `escape_game` branch: three sequential
independent `if` statements keyed on `s.type`. -/
def escSection (s : TVal) (st : StR) : TVal × StR := escStep3 (escStep2 (escStep1 s st))

/-- Per-option transform of the `what_and_why` branch:
`o => { if (Array.isArray(o.whys)) o.whys = shuffle(o.whys); return o }`. -/
def wawOption (o : TVal) (st : StR) : TVal × StR := updArrField "whys" shuffleVal o st

/-- Per-case transform of the `what_and_why` branch:
`c => { if (Array.isArray(c.options)) c.options = shuffle(c.options).map(...); return c }`. -/
def wawCase (c : TVal) (st : StR) : TVal × StR :=
  updArrField "options" (shuffleMap wawOption) c st

/-- The discriminator read `result.game_type || result.gameType`
(`const type = ...` of the source). -/
def gameTyOf (v : TVal) : Option TVal :=
  jsOr (getField v "game_type") (getField v "gameType")

/-- Two sequential shuffle updates on top-level properties, threading the
engine state (the shape of the `sortier_spiel`, `quick_quiz` and
`wer_bin_ich` branches). -/
def updTwo (k1 k2 : String) (result : TVal) (st0 : StR) : TVal × StR :=
  updArrField k2 shuffleVal (updArrField k1 shuffleVal result st0).1
    (updArrField k1 shuffleVal result st0).2

/-- The dispatch of `_randomizePayload` after the deep clone: branch on
`result.game_type || result.gameType` and apply the per-type shuffle
table to `result`. -/
def randomizeBody (result : TVal) (st0 : StR) : TVal × StR :=
  if tyIs (gameTyOf result) "escape_game" && isArr (getField result "sections") then
    updArrField "sections" (shuffleMap escSection) result st0
  else if tyIs (gameTyOf result) "matching_puzzle" && isArr (getField result "sets") then
    updArrField "sets" shuffleVal result st0
  else if tyIs (gameTyOf result) "sortier_spiel" && isArr (getField result "cards") then
    updTwo "cards" "columns" result st0
  else if tyIs (gameTyOf result) "quick_quiz" && isArr (getField result "questions") then
    updTwo "questions" "answerLabels" result st0
  else if tyIs (gameTyOf result) "wer_bin_ich" then
    updTwo "legalForms" "questions" result st0
  else if tyIs (gameTyOf result) "what_and_why" && isArr (getField result "cases") then
    updArrField "cases" (shuffleMap wawCase) result st0
  else (result, st0)

/-- `GameBase._randomizePayload` (game_base.js, lines 330-390): guard,
deep clone, then the type-dispatched shuffle table. -/
def randomizePayload (d : TVal) (st : StR) : TVal × StR :=
  if isObjLike d = false then (d, st)
  else
    let (result, c') := cloneFresh d st.1
    randomizeBody result (c', st.2)

/-- The sessionStorage branch of `GameBase._loadPayload` (lines 292-325):
when a stored payload parses to an object or array, the method returns
`this._randomizePayload(parsed)`.  `none` models falling through to the
network-fetch branch (storage miss, parse failure, or a non-object parse
result), which is external I/O outside this model. -/
def loadPayloadSession (stored : Option TVal) (st : StR) : Option (TVal × StR) :=
  match stored with
  | some raw => if isObjLike raw then some (randomizePayload raw st) else none
  | none => none

/-! ### String utilities

The JavaScript string operations used by the builders are re-implemented
on `List Char` by structural recursion so that every definition reduces
inside the kernel. -/

/-- Lower-casing, `String.prototype.toLowerCase` for the ASCII range used
by file extensions. -/
def lowerStr (s : String) : String := ⟨s.data.map Char.toLower⟩

/-- `String.prototype.startsWith`. -/
def strStartsWith (s p : String) : Bool := p.data.isPrefixOf s.data

/-- Split a character list at every occurrence of `sep`
(`String.prototype.split` with a single-character separator; empty
segments are preserved and the empty string yields `[[]]`). -/
def splitChars (sep : Char) : List Char → List (List Char)
  | [] => [[]]
  | c :: cs =>
    if c = sep then [] :: splitChars sep cs
    else
      match splitChars sep cs with
      | [] => [[c]]
      | g :: gs => (c :: g) :: gs

/-- `path.split("/")`. -/
def splitPath (s : String) : List String := (splitChars '/' s.data).map (fun cs => ⟨cs⟩)

/-- Join path segments with `/` (inverse of `splitPath` on slash-free
segments); used for the `id` stored in flat-list nodes. -/
def joinPath : List String → String
  | [] => ""
  | [s] => s
  | s :: t => s ++ "/" ++ joinPath t

/-- `path.extname`: the suffix from the last dot on, empty when there is
no dot or the only dot starts the base name. -/
def extname (nm : String) : String :=
  match splitChars '.' nm.data with
  | [] => ""
  | [_] => ""
  | _ :: g1 :: rest =>
    let last := ((g1 :: rest).getLast?).getD []
    if nm.data.length = last.length + 1 then "" else ⟨'.' :: last⟩

/-- File-kind classification of the local builder (`scanDir`): dispatch on
`path.extname(name).toLowerCase()`. -/
def kindOfExtname (nm : String) : Option String :=
  let e := lowerStr (extname nm)
  if e = ".json" then some "json"
  else if e = ".pdf" then some "pdf"
  else if e = ".pptx" ∨ e = ".ppt" then some "pptx"
  else none

/-- File-kind classification of the flat-list builder:
`part.split(".").pop().toLowerCase()` followed by the same dispatch (note
no leading dot and a dot-free name yields the whole name). -/
def extPop (nm : String) : String :=
  lowerStr ⟨((splitChars '.' nm.data).getLast?).getD []⟩

def kindOfExtPop (nm : String) : Option String :=
  let e := extPop nm
  if e = "json" then some "json"
  else if e = "pdf" then some "pdf"
  else if e = "pptx" ∨ e = "ppt" then some "pptx"
  else none

/-! ### Numeric-aware, case-insensitive name comparison

`a.name.localeCompare(b.name, undefined, { numeric: true, sensitivity:
"base" })` is modelled by mapping each name to a key: a maximal digit run
becomes the pair `(0, value)`, any other character the pair
`(1, lower-case code point)`, and keys are compared lexicographically.
Digit runs therefore compare by numeric value and letters
case-insensitively, which is exactly the behaviour the specification
relies on. -/

def digitVal (c : Char) : Nat := c.toNat - 48

mutual

def natKeyAux : List Char → List Nat
  | [] => []
  | c :: cs =>
    if c.isDigit then natKeyNum (digitVal c) cs
    else 1 :: c.toLower.toNat :: natKeyAux cs

def natKeyNum (acc : Nat) : List Char → List Nat
  | [] => [0, acc]
  | c :: cs =>
    if c.isDigit then natKeyNum (acc * 10 + digitVal c) cs
    else 0 :: acc :: 1 :: c.toLower.toNat :: natKeyAux cs

end

def natKey (s : String) : List Nat := natKeyAux s.data

/-- Lexicographic comparison of sort keys. -/
def cmpNatList : List Nat → List Nat → Ordering
  | [], [] => .eq
  | [], _ :: _ => .lt
  | _ :: _, [] => .gt
  | a :: as, b :: bs =>
    if a < b then .lt
    else if b < a then .gt
    else cmpNatList as bs

/-- The modelled `localeCompare(..., { numeric: true, sensitivity: "base" })`. -/
def natCmp (a b : String) : Ordering := cmpNatList (natKey a) (natKey b)

/-! ### The node model and the two tree builders -/

/-- One entry of the index tree.  A node is either a folder carrying a
`children` array, or a file carrying an optional `kind` and optional
embedded `data` (the flat-list builder never attaches `data`, and only
attaches `kind` for recognized extensions). -/
inductive Node where
  | folder (id nm : String) (children : List Node)
  | file (id nm : String) (kind : Option String) (data : Option Val)

def nodeName : Node → String
  | .folder _ nm _ => nm
  | .file _ nm _ _ => nm

def nodeIsFolder : Node → Bool
  | .folder _ _ _ => true
  | .file _ _ _ _ => false

def nodeKind : Node → Option String
  | .folder _ _ _ => none
  | .file _ _ k _ => k

def nodeChildren : Node → List Node
  | .folder _ _ cs => cs
  | .file _ _ _ _ => []

/-- Input of the local builder: a filesystem entry.  For a file, `content`
is the outcome of reading and `JSON.parse`-ing it (`none` models a parse
failure, which the builder logs and survives); it is consulted only for
`.json` files. -/
inductive FsEntry where
  | dir (nm : String) (entries : List FsEntry)
  | fil (nm : String) (content : Option Val)

def entName : FsEntry → String
  | .dir nm _ => nm
  | .fil nm _ => nm

def isDirE : FsEntry → Bool
  | .dir _ _ => true
  | .fil _ _ => false

/-- The sort comparator of `scanDir` (tools/update_index.js lines
1361-1365): directories first, then `localeCompare` with numeric and
base sensitivity. -/
def entCmp (a b : FsEntry) : Ordering :=
  if isDirE a && !isDirE b then .lt
  else if !isDirE a && isDirE b then .gt
  else natCmp (entName a) (entName b)

/-- The comparator as a relation: `a` may precede `b` in sorted order. -/
def entLe (a b : FsEntry) : Prop := entCmp a b ≠ .gt

instance : DecidableRel entLe := fun a b => inferInstanceAs (Decidable (entCmp a b ≠ .gt))

mutual

/-- `scanDir` on a single directory entry (hidden names are skipped, a
directory is emitted only when its recursive result is non-empty, files
are classified by extension and unrecognized extensions are dropped;
`.json` files embed their parse result as `data` when parsing succeeded). -/
def scanEntry (pfx : String) : FsEntry → Option Node
  | .dir nm entries =>
    if strStartsWith nm "." then none
    else if (scanList (pfx ++ "/" ++ nm) entries).isEmpty then none
    else some (.folder (pfx ++ "/" ++ nm) nm (scanList (pfx ++ "/" ++ nm) entries))
  | .fil nm content =>
    if strStartsWith nm "." then none
    else
      match kindOfExtname nm with
      | none => none
      | some k => some (.file (pfx ++ "/" ++ nm) nm (some k) (if k = "json" then content else none))
termination_by e => sizeOf e

/-- `scanDir` on a directory listing: sort with `entCmp`, then process
each entry in order, keeping the survivors. -/
def scanList (pfx : String) (entries : List FsEntry) : List Node :=
  (List.insertionSort entLe entries).attach.filterMap (fun e => scanEntry pfx e.1)
termination_by sizeOf entries
decreasing_by
  have hm : e.1 ∈ entries := (List.perm_insertionSort entLe entries).mem_iff.mp e.2
  have := List.sizeOf_lt_of_mem hm
  omega

end

/-! ### The flat-list builder (`buildTreeFromFlatList`, lines 1301-1338)

The JavaScript builder keys its deduplication map by the full normalized
path string.  All keys arise from `path.split("/")` results, on which the
segment list determines the string and vice versa, so the embedding keys
the map by the segment list directly; this avoids re-deriving string
surgery facts.  The sentinel entry `map["database"] = { children: root }`
is represented by the separate `root` field of the state, and `pushChild`
treats the key `["database"]` as that sentinel exactly as
`map[parentPath]` does. -/

/-- One element of the GitHub flat listing; `ty` is the JSON field
`type` (`"blob"` or `"tree"`). -/
structure GEntry where
  path : String
  ty : String
deriving DecidableEq

/-- One created node of the flat builder (node objects are shared between
the lookup map and their parent's `children` array; `children` stores the
keys of the child nodes).  A file node has `children := none`
(`undefined` in JavaScript); pushing onto it throws. -/
structure MapNode where
  id : String
  name : String
  isFolder : Bool
  kind : Option String
  children : Option (List (List String))
deriving DecidableEq

/-- The builder state: the `root` array plus the deduplication map. -/
structure BState where
  root : List (List String)
  map : List (List String × MapNode)
deriving DecidableEq

def alookup : List (List String × MapNode) → List String → Option MapNode
  | [], _ => none
  | (k', v) :: t, k => if k' = k then some v else alookup t k

def aupdate : List (List String × MapNode) → List String → MapNode → List (List String × MapNode)
  | [], _, _ => []
  | (k', v') :: t, k, v => if k' = k then (k', v) :: t else (k', v') :: aupdate t k v

/-- Test of `map[currentPath]` (the sentinel key included). -/
def hasKey (st : BState) (k : List String) : Bool :=
  if k = ["database"] then true else (alookup st.map k).isSome

/-- `if (map[parentPath]) map[parentPath].children.push(node)`: appending
to the sentinel extends `root`; a missing parent is silently skipped; a
parent without a `children` array (a file node) throws a `TypeError`,
modelled by `Except.error`. -/
def pushChild (st : BState) (parent child : List String) : Except Unit BState :=
  if parent = ["database"] then .ok { st with root := st.root ++ [child] }
  else
    match alookup st.map parent with
    | none => .ok st
    | some nd =>
      match nd.children with
      | some cs =>
        .ok { st with map := aupdate st.map parent { nd with children := some (cs ++ [child]) } }
      | none => .error ()

/-- The body of the inner `parts.forEach((part, i) => ...)` loop for index
`i`: create the node for the current prefix if it is not in the map yet
(classifying it as a folder when the processed entry says `"tree"` or the
segment is not the final one of this path), then attach it to its
parent. -/
def stepSeg (e : GEntry) (parts : List String) (st : BState) (i : Nat) : Except Unit BState :=
  let cur := parts.take (i + 1)
  if hasKey st cur then .ok st
  else
    let part := parts.getD i ""
    let isF : Bool := (e.ty == "tree") || decide (i + 1 < parts.length)
    let nd : MapNode :=
      { id := joinPath cur
        name := part
        isFolder := isF
        kind := if isF then none else kindOfExtPop part
        children := if isF then some [] else none }
    let st' : BState := { st with map := st.map ++ [(cur, nd)] }
    pushChild st' (parts.take i) cur

/-- The node `stepSeg` creates at index `i` (named so the invariant
proofs can speak about it). -/
def ndDef (e : GEntry) (parts : List String) (i : Nat) : MapNode :=
  let part := parts.getD i ""
  let isF : Bool := (e.ty == "tree") || decide (i + 1 < parts.length)
  { id := joinPath (parts.take (i + 1))
    name := part
    isFolder := isF
    kind := if isF then none else kindOfExtPop part
    children := if isF then some [] else none }

/-- Process one listing entry: split its path and run the segment loop
left to right. -/
def processEntry (st : BState) (e : GEntry) : Except Unit BState :=
  let parts := splitPath e.path
  (List.range parts.length).foldlM (fun s i => stepSeg e parts s i) st

/-- `buildTreeFromFlatList`: fold the listing over the empty state.  The
JavaScript function returns the `root` array of node objects; the
embedding returns the final state, from which `flatResult` reads the
tree off. -/
def buildTreeFromFlatList (l : List GEntry) : Except Unit BState :=
  l.foldlM processEntry { root := [], map := [] }

/-- Read the object graph rooted at `key` out of the builder state (the
denotation of the mutated node objects).  `fuel` bounds the depth; any
value at least the tree depth yields the full tree. -/
def buildNodeOut (st : BState) : Nat → List String → Option Node
  | 0, _ => none
  | fuel + 1, key =>
    match alookup st.map key with
    | none => none
    | some nd =>
      match nd.children with
      | some cs => some (.folder nd.id nd.name (cs.filterMap (buildNodeOut st fuel)))
      | none => some (.file nd.id nd.name nd.kind none)

/-- The tree returned by the builder (the denotation of `root`). -/
def flatResult (st : BState) (fuel : Nat) : List Node :=
  st.root.filterMap (buildNodeOut st fuel)

/-- The pre-filter of `rebuildIndexFromGithub` (lines 1286-1287):
`n.path.startsWith("database/") && n.path !== "database"`. -/
def githubFilter (l : List GEntry) : List GEntry :=
  l.filter (fun e => strStartsWith e.path "database/" && decide (e.path ≠ "database"))

/-! ### Navigation-state transitions (index.js, lines 954-1115)

`localStorage` under the state key is modelled at value level by
`Option AppState` (`JSON.stringify` of the well-typed state is injective,
so storing the value itself is faithful).  The DOM side effects of the
handlers (class toggling, icon text) are external rendering and carry no
state. -/

structure AppState where
  selectedId : Option String
  openedIds : List String
  drawerOpen : Bool
  drawerWidth : Int
deriving DecidableEq

/-- The initial in-memory state literal. -/
def appStateInit : AppState := { selectedId := none, openedIds := [], drawerOpen := false, drawerWidth := 320 }

/-- In-memory state together with the persisted copy. -/
structure UiState where
  app : AppState
  stored : Option AppState
deriving DecidableEq

/-- `saveAppState()`: synchronous write-through of the full state. -/
def saveAppState (s : UiState) : UiState := { s with stored := some s.app }

/-- `selectNode(id)`: set `selectedId`, then save (rendering follows and
is external). -/
def selectNodeSt (id : String) (s : UiState) : UiState :=
  saveAppState { s with app := { s.app with selectedId := some id } }

/-- `toggleNode`: `splice` out the first occurrence of `id` in
`openedIds`, or `push` it, then save. -/
def toggleNodeSt (id : String) (s : UiState) : UiState :=
  let ids := s.app.openedIds
  let ids' := if id ∈ ids then ids.erase id else ids ++ [id]
  saveAppState { s with app := { s.app with openedIds := ids' } }

/-- `setDrawer(isOpen)`: set the flag, then save. -/
def setDrawerSt (b : Bool) (s : UiState) : UiState :=
  saveAppState { s with app := { s.app with drawerOpen := b } }

/-- `toggleDrawer()`. -/
def toggleDrawerSt (s : UiState) : UiState := setDrawerSt (!s.app.drawerOpen) s

/-- The `mousemove` resize handler: clamp `e.clientX` into
`[200, maxW]` (where `maxW` stands for the environment value
`window.innerWidth * 0.8`) and update the in-memory width.  Note that it
does not call `saveAppState`. -/
def resizerMove (isResizing : Bool) (clientX maxW : Int) (s : UiState) : UiState :=
  if isResizing = false then s
  else
    let w1 := if clientX < 200 then 200 else clientX
    let w2 := if w1 > maxW then maxW else w1
    { s with app := { s.app with drawerWidth := w2 } }

/-- The `mouseup` handler: when a resize gesture was in progress, save. -/
def resizerUp (isResizing : Bool) (s : UiState) : UiState :=
  if isResizing then saveAppState s else s

/-- The persisted copy agrees with the in-memory state. -/
def persistedMatches (s : UiState) : Prop := s.stored = some s.app

/-! ### Loading persisted navigation state (`loadAppState`, lines 917-922)

The code is `Object.assign(appState, JSON.parse(raw))` inside a
`try/catch`.  There is no per-field validation, so the loaded fields are
modelled as raw JSON values.  The stored cell is `Option (Option Val)`:
`none` when no entry exists, `some none` when an entry exists but
`JSON.parse` throws on it (the `catch` then leaves the defaults), and
`some (some v)` when it parses to `v`. -/

structure SJState where
  selectedId : Val
  openedIds : Val
  drawerOpen : Val
  drawerWidth : Val

/-- The defaults from the `appState` literal: `null`, `[]`, `false`,
`320`. -/
def sjDefaults : SJState :=
  { selectedId := .prim .nullv
    openedIds := .arr []
    drawerOpen := .prim (.boolean false)
    drawerWidth := .prim (.num 320) }

/-- Last occurrence of a key (`JSON.parse` keeps the last duplicate and
`Object.assign` applies source properties in order, so the last
occurrence wins). -/
def lookupLastV : List (String × Val) → String → Option Val
  | [], _ => none
  | (k', v) :: t, k =>
    match lookupLastV t k with
    | some r => some r
    | none => if k' = k then some v else none

/-- Effect of `Object.assign(appState, v)` on the four tracked fields: an
object source overwrites exactly the fields it carries, with no type
checking; primitive, array and string sources have no own enumerable
property named like a tracked field, so the fields keep their values. -/
def objAssign (d : SJState) (v : Val) : SJState :=
  match v with
  | .obj kvs =>
    { selectedId := (lookupLastV kvs "selectedId").getD d.selectedId
      openedIds := (lookupLastV kvs "openedIds").getD d.openedIds
      drawerOpen := (lookupLastV kvs "drawerOpen").getD d.drawerOpen
      drawerWidth := (lookupLastV kvs "drawerWidth").getD d.drawerWidth }
  | _ => d

/-- `loadAppState()` over the modelled storage cell. -/
def loadAppState : Option (Option Val) → SJState
  | none => sjDefaults
  | some none => sjDefaults
  | some (some v) => objAssign sjDefaults v

/-! ### Derived predicates used in the claim statements -/

/-- Sibling comparator on built nodes: the image of `entCmp` under node
construction. -/
def nodeCmp (a b : Node) : Ordering :=
  if nodeIsFolder a && !nodeIsFolder b then .lt
  else if !nodeIsFolder a && nodeIsFolder b then .gt
  else natCmp (nodeName a) (nodeName b)

def nodeLeB (a b : Node) : Bool := nodeCmp a b != .gt

/-- Adjacent pairs of a sibling list respect the comparator. -/
def adjOkB : List Node → Bool
  | [] => true
  | [_] => true
  | a :: b :: t => nodeLeB a b && adjOkB (b :: t)

mutual

/-- Every sibling set inside the node is ordered (folders before files,
then numeric-aware case-insensitive name order). -/
def treeOrderedB : Node → Bool
  | .folder _ _ cs => adjOkB cs && allTreeOrderedB cs
  | .file _ _ _ _ => true

def allTreeOrderedB : List Node → Bool
  | [] => true
  | n :: t => treeOrderedB n && allTreeOrderedB t

end

def listOrderedB (l : List Node) : Bool := adjOkB l && allTreeOrderedB l

mutual

/-- Every file node in the tree has a recognized extension and every
folder node is non-empty (the pruning and filtering properties of the
local builder). -/
def prunedOkB : Node → Bool
  | .folder _ _ cs => !cs.isEmpty && allPrunedOkB cs
  | .file _ nm _ _ => (kindOfExtname nm).isSome

def allPrunedOkB : List Node → Bool
  | [] => true
  | n :: t => prunedOkB n && allPrunedOkB t

end

mutual

/-- Every non-folder node in the tree carries a `kind`. -/
def leafKindsB : Node → Bool
  | .folder _ _ cs => allLeafKindsB cs
  | .file _ _ k _ => k.isSome

def allLeafKindsB : List Node → Bool
  | [] => true
  | n :: t => leafKindsB n && allLeafKindsB t

end

/-- The closed table of top-level properties each content type may
shuffle (spec section 4.3). -/
def shuffleKeysT (ty : Option TVal) : List String :=
  if tyIs ty "escape_game" then ["sections"]
  else if tyIs ty "matching_puzzle" then ["sets"]
  else if tyIs ty "sortier_spiel" then ["cards", "columns"]
  else if tyIs ty "quick_quiz" then ["questions", "answerLabels"]
  else if tyIs ty "wer_bin_ich" then ["legalForms", "questions"]
  else if tyIs ty "what_and_why" then ["cases"]
  else []

/-- Freshness specification of an engine operation: the tag counter never
decreases, and every tag of the output either occurs in the input value
or was allocated at or above the starting counter. -/
def tagSpec (op : TVal → StR → TVal × StR) : Prop :=
  ∀ (v : TVal) (st : StR), st.1 ≤ (op v st).2.1 ∧
    ∀ t ∈ tagsT (op v st).1, t ∈ tagsT v ∨ st.1 ≤ t

/-! ### Concrete values used by examples, counterexamples and witnesses -/

/-- A stored `quick_quiz` payload with two questions (input tags `0`,
`1`). -/
def storedQQ : TVal :=
  .obj 0 [("game_type", .prim (.str "quick_quiz")),
          ("questions", .arr 1 [.prim (.str "q1"), .prim (.str "q2")])]

/-- The stripped image of `storedQQ`. -/
def qqIn : Val :=
  .obj [("game_type", .prim (.str "quick_quiz")),
        ("questions", .arr [.prim (.str "q1"), .prim (.str "q2")])]

/-- What the engine produces from `storedQQ` on random supply `[0]`
(questions swapped), tags erased. -/
def qqOut : Val :=
  .obj [("game_type", .prim (.str "quick_quiz")),
        ("questions", .arr [.prim (.str "q2"), .prim (.str "q1")])]

/-- An `escape_game` payload with one quiz section whose single question
has options `["A", "B"]`. -/
def escTwo : TVal :=
  .obj 0 [("game_type", .prim (.str "escape_game")),
          ("sections", .arr 1 [
            .obj 2 [("type", .prim (.str "quiz")),
                    ("questions", .arr 3 [
                      .obj 4 [("options", .arr 5 [.prim (.str "A"), .prim (.str "B")])]])]])]

/-- The payload of the spec quiz-shuffle example: one quiz section, one
question, options `["A", "B", "C"]`. -/
def quizABC : TVal :=
  .obj 0 [("game_type", .prim (.str "escape_game")),
          ("sections", .arr 1 [
            .obj 2 [("type", .prim (.str "quiz")),
                    ("questions", .arr 3 [
                      .obj 4 [("options", .arr 5 [.prim (.str "A"), .prim (.str "B"), .prim (.str "C")])]])]])]

/-- The sections element of `escTwo` after the options were reversed,
tags erased (what the engine produces on random supply `[0]`). -/
def escTwoSecOut : Val :=
  .obj [("type", .prim (.str "quiz")),
        ("questions", .arr [.obj [("options", .arr [.prim (.str "B"), .prim (.str "A")])]])]

/-- The sections element of `escTwo` itself, tags erased. -/
def escTwoSecIn : Val :=
  .obj [("type", .prim (.str "quiz")),
        ("questions", .arr [.obj [("options", .arr [.prim (.str "A"), .prim (.str "B")])]])]

/-- The flat-listing input of the spec remote-build example. -/
def flatExampleInput : List GEntry :=
  [{ path := "database/x.json", ty := "blob" }, { path := "database", ty := "tree" }]

/-- A flat listing containing a blob with an unrecognized extension. -/
def flatTxtInput : List GEntry := [{ path := "database/a.txt", ty := "blob" }]

/-- The builder state reached from `flatTxtInput` (spelled out; used by
witnesses). -/
def stTxt : BState :=
  { root := [["database", "a.txt"]]
    map := [(["database", "a.txt"],
      { id := "database/a.txt", name := "a.txt", isFolder := false,
        kind := none, children := none })] }

/-- The builder state reached from the filtered spec example input
(spelled out; used by witnesses). -/
def stXJson : BState :=
  { root := [["database", "x.json"]]
    map := [(["database", "x.json"],
      { id := "database/x.json", name := "x.json", isFolder := false,
        kind := some "json", children := none })] }

/-! ### Invariants of the flat builder

These predicates are established over every successful run of
`buildTreeFromFlatList` and together decide the deduplication and
classification behaviour of the builder. -/

/-- State invariants of the flat builder: the deduplication keys are
distinct and never the sentinel key `["database"]`, a node carries a
`children` array exactly when it is a folder, a file node's `kind` is the
one derived from the popped extension of its `name`, and the parent key
of every key of length at least two is the sentinel or a folder node of
the map. -/
def InvCore (st : BState) : Prop :=
  (st.map.map Prod.fst).Nodup ∧
  (∀ kn ∈ st.map, kn.1 ≠ ["database"]) ∧
  (∀ kn ∈ st.map, kn.2.children.isSome = kn.2.isFolder ∧
     (kn.2.isFolder = false → kn.2.kind = kindOfExtPop kn.2.name)) ∧
  (∀ kn ∈ st.map, 2 ≤ kn.1.length →
     kn.1.dropLast = ["database"] ∨
     ∃ nd, alookup st.map kn.1.dropLast = some nd ∧ nd.isFolder = true)

/-- Creation record: every node of the map was created while processing
some entry of `l`, at the segment index recorded here; its name is that
segment and its folder flag is the disjunction the source computes at
creation time. -/
def RecordB (l : List GEntry) (st : BState) : Prop :=
  ∀ kn ∈ st.map, ∃ e ∈ l, ∃ i, i < (splitPath e.path).length ∧
    kn.1 = (splitPath e.path).take (i + 1) ∧
    kn.2.name = (splitPath e.path).getD i "" ∧
    kn.2.isFolder = ((e.ty == "tree") || decide (i + 1 < (splitPath e.path).length))

/-- Every prefix of every processed path answers the `map[currentPath]`
test (the sentinel key included). -/
def PrefixP (l : List GEntry) (st : BState) : Prop :=
  ∀ e ∈ l, ∀ j, j < (splitPath e.path).length →
    hasKey st ((splitPath e.path).take (j + 1)) = true

/-! ## Theorems -/

/-! ### Induction principles for the nested value types -/

theorem tval_ind {P : TVal → Prop}
    (hp : ∀ p, P (.prim p))
    (ha : ∀ t l, (∀ v ∈ l, P v) → P (.arr t l))
    (ho : ∀ t l, (∀ kv ∈ l, P kv.2) → P (.obj t l)) : ∀ v, P v := by
  intro v
  refine TVal.rec (motive_1 := P) (motive_2 := fun l => ∀ v ∈ l, P v)
    (motive_3 := fun l => ∀ kv ∈ l, P kv.2) (motive_4 := fun kv => P kv.2)
    hp (fun t l ih => ha t l ih) (fun t l ih => ho t l ih)
    ?_ ?_ ?_ ?_ ?_ v
  · intro v hv; cases hv
  · intro hd tl ihh iht v hv
    cases hv with
    | head => exact ihh
    | tail _ h => exact iht _ h
  · intro kv hkv; cases hkv
  · intro hd tl ihh iht kv hkv
    cases hkv with
    | head => exact ihh
    | tail _ h => exact iht _ h
  · intro k v ihv; exact ihv

theorem val_ind {P : Val → Prop}
    (hp : ∀ p, P (.prim p))
    (ha : ∀ l, (∀ v ∈ l, P v) → P (.arr l))
    (ho : ∀ l, (∀ kv ∈ l, P kv.2) → P (.obj l)) : ∀ v, P v := by
  intro v
  refine Val.rec (motive_1 := P) (motive_2 := fun l => ∀ v ∈ l, P v)
    (motive_3 := fun l => ∀ kv ∈ l, P kv.2) (motive_4 := fun kv => P kv.2)
    hp (fun l ih => ha l ih) (fun l ih => ho l ih)
    ?_ ?_ ?_ ?_ ?_ v
  · intro v hv; cases hv
  · intro hd tl ihh iht v hv
    cases hv with
    | head => exact ihh
    | tail _ h => exact iht _ h
  · intro kv hkv; cases hkv
  · intro hd tl ihh iht kv hkv
    cases hkv with
    | head => exact ihh
    | tail _ h => exact iht _ h
  · intro k v ihv; exact ihv

theorem fs_ind {P : FsEntry → Prop}
    (hd : ∀ nm l, (∀ e ∈ l, P e) → P (.dir nm l))
    (hf : ∀ nm c, P (.fil nm c)) : ∀ e, P e := by
  intro e
  refine FsEntry.rec (motive_1 := P) (motive_2 := fun l => ∀ e ∈ l, P e)
    (fun nm l ih => hd nm l ih) hf ?_ ?_ e
  · intro e he; cases he
  · intro hd' tl ihh iht e he
    cases he with
    | head => exact ihh
    | tail _ h => exact iht _ h

theorem node_ind {P : Node → Prop}
    (hfo : ∀ i nm cs, (∀ n ∈ cs, P n) → P (.folder i nm cs))
    (hfi : ∀ i nm k d, P (.file i nm k d)) : ∀ n, P n := by
  intro n
  refine Node.rec (motive_1 := P) (motive_2 := fun l => ∀ n ∈ l, P n)
    (fun i nm cs ih => hfo i nm cs ih) hfi ?_ ?_ n
  · intro n hn; cases hn
  · intro hd' tl ihh iht n hn
    cases hn with
    | head => exact ihh
    | tail _ h => exact iht _ h

/-! ### Boolean equality on values -/

theorem valBeqArr_refl_of (l : List Val) (ih : ∀ v ∈ l, valBeq v v = true) :
    valBeqArr l l = true := by
  induction l with
  | nil => rfl
  | cons v vs ihl =>
    simp only [valBeqArr, Bool.and_eq_true]
    exact ⟨ih v (by simp), ihl (fun w hw => ih w (by simp [hw]))⟩

theorem valBeqFlds_refl_of (l : List (String × Val)) (ih : ∀ kv ∈ l, valBeq kv.2 kv.2 = true) :
    valBeqFlds l l = true := by
  induction l with
  | nil => rfl
  | cons kv vs ihl =>
    obtain ⟨k, v⟩ := kv
    simp only [valBeqFlds, Bool.and_eq_true]
    exact ⟨by simp, ih (k, v) (by simp), ihl (fun w hw => ih w (by simp [hw]))⟩

theorem valBeq_refl : ∀ v : Val, valBeq v v = true := by
  refine val_ind ?_ ?_ ?_
  · intro p; simp [valBeq]
  · intro l ih; exact valBeqArr_refl_of l ih
  · intro l ih; exact valBeqFlds_refl_of l ih

/-- Disequality of concrete values from a computed `false`. -/
theorem val_ne_of_valBeq_false {a b : Val} (h : valBeq a b = false) : a ≠ b := by
  intro he
  subst he
  rw [valBeq_refl] at h
  cases h

/-! ### Claim C10: non-object inputs pass through the randomizer -/

/-- C10: for every input value that is `null` or not of object type (a
scalar), `_randomizePayload` returns that exact input value, with the
engine state untouched: no tag is allocated (no deep copy is made) and no
random draw is consumed (no shuffling occurs). -/
theorem claim_C10 (v : TVal) (st : StR) (h : isObjLike v = false) :
    randomizePayload v st = (v, st) := by
  simp [randomizePayload, h]

theorem claim_C10_witness :
    isObjLike (.prim (.str "hello")) = false ∧
      randomizePayload (.prim (.str "hello")) (7, [3, 1]) = (.prim (.str "hello"), (7, [3, 1])) :=
  ⟨rfl, claim_C10 (.prim (.str "hello")) (7, [3, 1]) rfl⟩

/-! ### Claim C7: persistence of navigation-state transitions -/

/-- C7 counterexample: a `mousemove` resize transition updates the
in-memory drawer width without writing it to storage, so immediately
after this transition the persisted state differs from the in-memory
state (the claim asserts they agree after every transition, including
resize). -/
theorem claim_C7_counterexample :
    ¬ persistedMatches
        (resizerMove true 400 1000 { app := appStateInit, stored := some appStateInit }) := by
  unfold persistedMatches
  decide

/-- C7 amended: select, expand/collapse toggle and drawer open/close
each write the full state synchronously, and so does the `mouseup` that
ends a resize gesture; but the width updates performed by `mousemove`
during the gesture leave the persisted state untouched, so persistence
for resizing happens only at the end of the gesture. -/
theorem claim_C7_amended :
    (∀ id s, persistedMatches (selectNodeSt id s)) ∧
    (∀ id s, persistedMatches (toggleNodeSt id s)) ∧
    (∀ b s, persistedMatches (setDrawerSt b s)) ∧
    (∀ s, persistedMatches (toggleDrawerSt s)) ∧
    (∀ s, persistedMatches (resizerUp true s)) ∧
    (∀ x m s, (resizerMove true x m s).stored = s.stored) := by
  refine ⟨fun id s => rfl, fun id s => rfl, fun b s => rfl, fun s => rfl, fun s => rfl, ?_⟩
  intro x m s
  simp [resizerMove]

/-! ### Claim C8: loading persisted navigation state -/

/-- C8 counterexample: a stored blob that parses but carries a
wrong-typed field is applied verbatim by `Object.assign` instead of
falling back to the default for that field (the claim asserts every
field that fails to parse falls back to its default). -/
theorem claim_C8_counterexample :
    (loadAppState (some (some (.obj [("drawerWidth", .prim (.str "broken")),
        ("selectedId", .prim (.str "a"))])))).drawerWidth = .prim (.str "broken") ∧
    sjDefaults.drawerWidth = .prim (.num 320) ∧
    Val.prim (.str "broken") ≠ Val.prim (.num 320) := by
  refine ⟨rfl, rfl, ?_⟩
  simp

/-- C8 amended: `loadAppState` is total over every storage content (a
missing entry, an unparseable blob — the thrown parse error is caught —
and any parsed value), a whole-document parse failure or a non-object
parse result yields the full defaults, and a parsed object overwrites
exactly the fields it carries, each applied verbatim with no per-field
validation (absent fields keep their defaults, last duplicate wins). -/
theorem claim_C8_amended :
    loadAppState none = sjDefaults ∧
    loadAppState (some none) = sjDefaults ∧
    (∀ p, loadAppState (some (some (.prim p))) = sjDefaults) ∧
    (∀ l, loadAppState (some (some (.arr l))) = sjDefaults) ∧
    (∀ kvs, loadAppState (some (some (.obj kvs))) =
      { selectedId := (lookupLastV kvs "selectedId").getD sjDefaults.selectedId
        openedIds := (lookupLastV kvs "openedIds").getD sjDefaults.openedIds
        drawerOpen := (lookupLastV kvs "drawerOpen").getD sjDefaults.drawerOpen
        drawerWidth := (lookupLastV kvs "drawerWidth").getD sjDefaults.drawerWidth }) :=
  ⟨rfl, rfl, fun _ => rfl, fun _ => rfl, fun _ => rfl⟩

/-! ### The Fisher-Yates loop produces a permutation -/

theorem perm_cons_set {α : Type} :
    ∀ (t : List α) (k : Nat) (h : k < t.length) (x : α),
      List.Perm (t.get ⟨k, h⟩ :: t.set k x) (x :: t) := by
  intro t
  induction t with
  | nil => intro k h x; cases h
  | cons hd tl ih =>
    intro k h x
    cases k with
    | zero => simpa using List.Perm.swap x hd tl
    | succ m =>
      have hm : m < tl.length := by simpa using h
      have s1 : List.Perm (tl.get ⟨m, hm⟩ :: hd :: tl.set m x)
          (hd :: tl.get ⟨m, hm⟩ :: tl.set m x) := List.Perm.swap _ _ _
      have s2 : List.Perm (hd :: tl.get ⟨m, hm⟩ :: tl.set m x) (hd :: x :: tl) :=
        (ih m hm x).cons hd
      have s3 : List.Perm (hd :: x :: tl) (x :: hd :: tl) := List.Perm.swap _ _ _
      have htot := (s1.trans s2).trans s3
      simpa using htot

theorem set_set_perm {α : Type} :
    ∀ (a : List α) (i j : Nat) (hi : i < a.length) (hj : j < a.length),
      List.Perm ((a.set i (a.get ⟨j, hj⟩)).set j (a.get ⟨i, hi⟩)) a := by
  intro a
  induction a with
  | nil => intro i j hi hj; cases hi
  | cons hd tl ih =>
    intro i j hi hj
    cases i with
    | zero =>
      cases j with
      | zero => simp
      | succ k =>
        have hk : k < tl.length := by simpa using hj
        simpa using perm_cons_set tl k hk hd
    | succ m =>
      have hm : m < tl.length := by simpa using hi
      cases j with
      | zero =>
        simpa using perm_cons_set tl m hm hd
      | succ k =>
        have hk : k < tl.length := by simpa using hj
        simpa using (ih m k hm hk).cons hd

theorem swapL_perm {α : Type} (a : List α) (i j : Nat) : List.Perm (swapL a i j) a := by
  unfold swapL
  cases ha : a[i]? with
  | none => exact List.Perm.refl a
  | some x =>
    cases hb : a[j]? with
    | none => exact List.Perm.refl a
    | some y =>
      obtain ⟨hi, hx⟩ := List.getElem?_eq_some.mp ha
      obtain ⟨hj, hy⟩ := List.getElem?_eq_some.mp hb
      have hp := set_set_perm a i j hi hj
      simp only [List.get_eq_getElem] at hp
      rw [hx, hy] at hp
      exact hp

theorem fyAux_perm {α : Type} :
    ∀ (n : Nat) (a : List α) (st : StR), List.Perm (fyAux a n st).1 a := by
  intro n
  induction n with
  | zero => intro a st; exact List.Perm.refl a
  | succ m ih =>
    intro a st
    rcases hd : draw (m + 2) st with ⟨j, st'⟩
    have he : (fyAux a (m + 1) st).1 = (fyAux (swapL a (m + 1) j) m st').1 := by
      simp [fyAux, hd]
    rw [he]
    exact (ih _ _).trans (swapL_perm a (m + 1) j)

theorem shuffleL_perm {α : Type} (a : List α) (st : StR) : List.Perm (shuffleL a st).1 a := by
  unfold shuffleL
  cases h : a.length with
  | zero => exact List.Perm.refl a
  | succ n => exact fyAux_perm n a st

/-! ### The deep clone preserves content -/

theorem strip_cloneAll :
    (∀ v : TVal, ∀ c, strip (cloneFresh v c).1 = strip v) := by
  have harr : ∀ (l : List TVal), (∀ v ∈ l, ∀ c, strip (cloneFresh v c).1 = strip v) →
      ∀ c, stripArr (cloneArr l c).1 = stripArr l := by
    intro l
    induction l with
    | nil => intro _ c; rfl
    | cons v vs ihl =>
      intro ih c
      rcases hv : cloneFresh v c with ⟨v', c'⟩
      rcases hvs : cloneArr vs c' with ⟨vs', c''⟩
      have h1 : strip v' = strip v := by
        have := ih v (by simp) c
        rw [hv] at this
        exact this
      have h2 : stripArr vs' = stripArr vs := by
        have := ihl (fun w hw => ih w (by simp [hw])) c'
        rw [hvs] at this
        exact this
      simp [cloneArr, hv, hvs, stripArr, h1, h2]
  have hflds : ∀ (l : List (String × TVal)), (∀ kv ∈ l, ∀ c, strip (cloneFresh kv.2 c).1 = strip kv.2) →
      ∀ c, stripFlds (cloneFlds l c).1 = stripFlds l := by
    intro l
    induction l with
    | nil => intro _ c; rfl
    | cons kv vs ihl =>
      obtain ⟨k, v⟩ := kv
      intro ih c
      rcases hv : cloneFresh v c with ⟨v', c'⟩
      rcases hvs : cloneFlds vs c' with ⟨vs', c''⟩
      have h1 : strip v' = strip v := by
        have := ih (k, v) (by simp) c
        rw [hv] at this
        exact this
      have h2 : stripFlds vs' = stripFlds vs := by
        have := ihl (fun w hw => ih w (by simp [hw])) c'
        rw [hvs] at this
        exact this
      simp [cloneFlds, hv, hvs, stripFlds, h1, h2]
  refine tval_ind ?_ ?_ ?_
  · intro p c; rfl
  · intro t l ih c
    rcases hl : cloneArr l (c + 1) with ⟨l', c'⟩
    have := harr l ih (c + 1)
    rw [hl] at this
    simp [cloneFresh, hl, strip, this]
  · intro t l ih c
    rcases hl : cloneFlds l (c + 1) with ⟨l', c'⟩
    have := hflds l ih (c + 1)
    rw [hl] at this
    simp [cloneFresh, hl, strip, this]

/-! ### Leaf preservation through the engine -/

theorem leavesArr_perm :
    ∀ {l l' : List TVal}, List.Perm l' l → List.Perm (leavesArr l') (leavesArr l) := by
  intro l l' h
  induction h with
  | nil => exact List.Perm.refl _
  | cons x _ ih => simpa [leavesArr] using ih.append_left (leavesT x)
  | swap x y r =>
    show List.Perm (leavesT y ++ (leavesT x ++ leavesArr r))
      (leavesT x ++ (leavesT y ++ leavesArr r))
    rw [← List.append_assoc, ← List.append_assoc]
    exact List.perm_append_comm.append_right (leavesArr r)
  | trans _ _ ih1 ih2 => exact ih1.trans ih2

theorem leaves_cloneAll :
    ∀ v : TVal, ∀ c, leavesT (cloneFresh v c).1 = leavesT v := by
  have harr : ∀ (l : List TVal), (∀ v ∈ l, ∀ c, leavesT (cloneFresh v c).1 = leavesT v) →
      ∀ c, leavesArr (cloneArr l c).1 = leavesArr l := by
    intro l
    induction l with
    | nil => intro _ c; rfl
    | cons v vs ihl =>
      intro ih c
      rcases hv : cloneFresh v c with ⟨v', c'⟩
      rcases hvs : cloneArr vs c' with ⟨vs', c''⟩
      have h1 : leavesT v' = leavesT v := by
        have := ih v (by simp) c
        rw [hv] at this
        exact this
      have h2 : leavesArr vs' = leavesArr vs := by
        have := ihl (fun w hw => ih w (by simp [hw])) c'
        rw [hvs] at this
        exact this
      simp [cloneArr, hv, hvs, leavesArr, h1, h2]
  have hflds : ∀ (l : List (String × TVal)),
      (∀ kv ∈ l, ∀ c, leavesT (cloneFresh kv.2 c).1 = leavesT kv.2) →
      ∀ c, leavesFlds (cloneFlds l c).1 = leavesFlds l := by
    intro l
    induction l with
    | nil => intro _ c; rfl
    | cons kv vs ihl =>
      obtain ⟨k, v⟩ := kv
      intro ih c
      rcases hv : cloneFresh v c with ⟨v', c'⟩
      rcases hvs : cloneFlds vs c' with ⟨vs', c''⟩
      have h1 : leavesT v' = leavesT v := by
        have := ih (k, v) (by simp) c
        rw [hv] at this
        exact this
      have h2 : leavesFlds vs' = leavesFlds vs := by
        have := ihl (fun w hw => ih w (by simp [hw])) c'
        rw [hvs] at this
        exact this
      simp [cloneFlds, hv, hvs, leavesFlds, h1, h2]
  refine tval_ind ?_ ?_ ?_
  · intro p c; rfl
  · intro t l ih c
    rcases hl : cloneArr l (c + 1) with ⟨l', c'⟩
    have := harr l ih (c + 1)
    rw [hl] at this
    simp [cloneFresh, hl, leavesT, this]
  · intro t l ih c
    rcases hl : cloneFlds l (c + 1) with ⟨l', c'⟩
    have := hflds l ih (c + 1)
    rw [hl] at this
    simp [cloneFresh, hl, leavesT, this]

theorem leavesFlds_setF :
    ∀ (kvs : List (String × TVal)) (k : String) (v old : TVal),
      lookupF kvs k = some old → List.Perm (leavesT v) (leavesT old) →
      List.Perm (leavesFlds (setF kvs k v)) (leavesFlds kvs) := by
  intro kvs
  induction kvs with
  | nil => intro k v old h _; cases h
  | cons kv t ih =>
    obtain ⟨k', v'⟩ := kv
    intro k v old h hperm
    by_cases hk : k' = k
    · subst hk
      simp [lookupF] at h
      subst h
      simp [setF, leavesFlds]
      exact hperm.append_right (leavesFlds t)
    · simp [lookupF, hk] at h
      simp [setF, hk, leavesFlds]
      exact (ih k v old h hperm).append_left (leavesT v')

theorem leaves_setField {s : TVal} {k : String} {v old : TVal}
    (h : getField s k = some old) (hperm : List.Perm (leavesT v) (leavesT old)) :
    List.Perm (leavesT (setField s k v)) (leavesT s) := by
  cases s with
  | prim p => cases h
  | arr t l => cases h
  | obj t l =>
    simp only [getField] at h
    simpa [setField, leavesT] using leavesFlds_setF l k v old h hperm

theorem shuffleVal_leaves (v : TVal) (st : StR) :
    List.Perm (leavesT (shuffleVal v st).1) (leavesT v) := by
  cases v with
  | prim p => exact List.Perm.refl _
  | obj t l => exact List.Perm.refl _
  | arr t l =>
    rcases hf : freshTag st with ⟨t', st'⟩
    rcases hs : shuffleL l st' with ⟨l', st''⟩
    have hperm : List.Perm l' l := by
      have := shuffleL_perm l st'
      rw [hs] at this
      exact this
    have := leavesArr_perm hperm
    simpa [shuffleVal, hf, hs, leavesT] using this

theorem mapSt_leaves (f : TVal → StR → TVal × StR) :
    ∀ (l : List TVal) (st : StR),
      (∀ v ∈ l, ∀ st', List.Perm (leavesT (f v st').1) (leavesT v)) →
      List.Perm (leavesArr (mapSt f l st).1) (leavesArr l) := by
  intro l
  induction l with
  | nil => intro st _; exact List.Perm.refl _
  | cons v vs ih =>
    intro st hp
    rcases hv : f v st with ⟨v', st'⟩
    rcases hvs : mapSt f vs st' with ⟨vs', st''⟩
    have h1 : List.Perm (leavesT v') (leavesT v) := by
      have := hp v (by simp) st
      rw [hv] at this
      exact this
    have h2 : List.Perm (leavesArr vs') (leavesArr vs) := by
      have := ih st' (fun w hw st'' => hp w (by simp [hw]) st'')
      rw [hvs] at this
      exact this
    simpa [mapSt, hv, hvs, leavesArr] using h1.append h2

theorem shuffleMap_leaves (f : TVal → StR → TVal × StR) (v : TVal) (st : StR)
    (hf : ∀ w st', List.Perm (leavesT (f w st').1) (leavesT w)) :
    List.Perm (leavesT (shuffleMap f v st).1) (leavesT v) := by
  rcases hs : shuffleVal v st with ⟨sv, st'⟩
  have hsl : List.Perm (leavesT sv) (leavesT v) := by
    have := shuffleVal_leaves v st
    rw [hs] at this
    exact this
  cases sv with
  | prim p => simpa [shuffleMap, hs] using hsl
  | obj t l => simpa [shuffleMap, hs] using hsl
  | arr t l =>
    rcases hfr : freshTag st' with ⟨t', st''⟩
    rcases hm : mapSt f l st'' with ⟨l', st'''⟩
    have h1 : List.Perm (leavesArr l') (leavesArr l) := by
      have := mapSt_leaves f l st'' (fun w _ st0 => hf w st0)
      rw [hm] at this
      exact this
    have h2 : List.Perm (leavesArr l) (leavesT v) := by simpa [leavesT] using hsl
    have := h1.trans h2
    simpa [shuffleMap, hs, hfr, hm, leavesT] using this

theorem updArrField_leaves (fieldName : String) (op : TVal → StR → TVal × StR)
    (s : TVal) (st : StR)
    (hop : ∀ w st', List.Perm (leavesT (op w st').1) (leavesT w)) :
    List.Perm (leavesT (updArrField fieldName op s st).1) (leavesT s) := by
  unfold updArrField
  cases hg : getField s fieldName with
  | none => exact List.Perm.refl _
  | some w =>
    cases w with
    | prim p => exact List.Perm.refl _
    | obj t l => exact List.Perm.refl _
    | arr t l =>
      rcases hop' : op (.arr t l) st with ⟨v', st'⟩
      have h1 : List.Perm (leavesT v') (leavesT (.arr t l)) := by
        have := hop (.arr t l) st
        rw [hop'] at this
        exact this
      simpa [hop'] using leaves_setField hg h1

theorem quizQ_leaves (q : TVal) (st : StR) :
    List.Perm (leavesT (quizQ q st).1) (leavesT q) :=
  updArrField_leaves "options" shuffleVal q st shuffleVal_leaves

theorem capRow_leaves (r : TVal) (st : StR) :
    List.Perm (leavesT (capRow r st).1) (leavesT r) :=
  updArrField_leaves "options" shuffleVal r st shuffleVal_leaves

theorem wawOption_leaves (o : TVal) (st : StR) :
    List.Perm (leavesT (wawOption o st).1) (leavesT o) :=
  updArrField_leaves "whys" shuffleVal o st shuffleVal_leaves

theorem escStep1_leaves (s : TVal) (st : StR) :
    List.Perm (leavesT (escStep1 s st).1) (leavesT s) := by
  unfold escStep1
  by_cases hq : typeIs s "quiz" = true
  · rw [if_pos hq]
    exact updArrField_leaves "questions" (shuffleMap quizQ) s st
      (fun w st' => shuffleMap_leaves quizQ w st' quizQ_leaves)
  · rw [if_neg hq]

theorem escStep2_leaves (p : TVal × StR) :
    List.Perm (leavesT (escStep2 p).1) (leavesT p.1) := by
  unfold escStep2
  by_cases hq : typeIs p.1 "sort" = true
  · rw [if_pos hq]
    exact updArrField_leaves "sortCards" shuffleVal p.1 p.2 shuffleVal_leaves
  · rw [if_neg hq]

theorem escStep3_leaves (p : TVal × StR) :
    List.Perm (leavesT (escStep3 p).1) (leavesT p.1) := by
  unfold escStep3
  by_cases hq : typeIs p.1 "capital" = true
  · rw [if_pos hq]
    exact updArrField_leaves "rows" (shuffleMap capRow) p.1 p.2
      (fun w st' => shuffleMap_leaves capRow w st' capRow_leaves)
  · rw [if_neg hq]

theorem escSection_leaves (s : TVal) (st : StR) :
    List.Perm (leavesT (escSection s st).1) (leavesT s) :=
  ((escStep3_leaves _).trans (escStep2_leaves _)).trans (escStep1_leaves s st)

theorem wawCase_leaves (c : TVal) (st : StR) :
    List.Perm (leavesT (wawCase c st).1) (leavesT c) :=
  updArrField_leaves "options" (shuffleMap wawOption) c st
    (fun w st' => shuffleMap_leaves wawOption w st' wawOption_leaves)

/-- Two sequential conditional field updates preserve leaves. -/
theorem updTwo_leaves (k1 k2 : String) (result : TVal) (st0 : StR) :
    List.Perm (leavesT (updTwo k1 k2 result st0).1) (leavesT result) := by
  unfold updTwo
  exact (updArrField_leaves k2 shuffleVal _ _ shuffleVal_leaves).trans
    (updArrField_leaves k1 shuffleVal result st0 shuffleVal_leaves)

theorem randomizeBody_leaves (result : TVal) (st0 : StR) :
    List.Perm (leavesT (randomizeBody result st0).1) (leavesT result) := by
  unfold randomizeBody
  split
  · exact updArrField_leaves "sections" (shuffleMap escSection) result _
      (fun w st' => shuffleMap_leaves escSection w st' escSection_leaves)
  · split
    · exact updArrField_leaves "sets" shuffleVal result _ shuffleVal_leaves
    · split
      · exact updTwo_leaves "cards" "columns" result st0
      · split
        · exact updTwo_leaves "questions" "answerLabels" result st0
        · split
          · exact updTwo_leaves "legalForms" "questions" result st0
          · split
            · exact updArrField_leaves "cases" (shuffleMap wawCase) result _
                (fun w st' => shuffleMap_leaves wawCase w st' wawCase_leaves)
            · exact List.Perm.refl _

/-- The randomization engine permutes the leaf list of its input: the
multiset of scalar leaves is unchanged. -/
theorem randomizePayload_leaves (v : TVal) (st : StR) :
    List.Perm (leavesT (randomizePayload v st).1) (leavesT v) := by
  unfold randomizePayload
  by_cases hobj : isObjLike v = false
  · rw [if_pos hobj]
  · rw [if_neg hobj]
    rcases hc : cloneFresh v st.1 with ⟨result, c'⟩
    have hcl : leavesT result = leavesT v := by
      have := leaves_cloneAll v st.1
      rw [hc] at this
      exact this
    rw [← hcl]
    exact randomizeBody_leaves result (c', st.2)

/-! ### Fields outside the shuffle table are untouched -/

theorem lookupF_setF_ne (kvs : List (String × TVal)) (k k' : String) (v : TVal)
    (h : k' ≠ k) : lookupF (setF kvs k v) k' = lookupF kvs k' := by
  induction kvs with
  | nil =>
    simp only [setF, lookupF]
    rw [if_neg (fun hh => h hh.symm)]
  | cons kv t ih =>
    obtain ⟨k0, v0⟩ := kv
    by_cases h0 : k0 = k
    · subst h0
      have hne : ¬ (k0 = k') := fun hh => h hh.symm
      simp [setF, lookupF, hne]
    · by_cases h1 : k0 = k'
      · simp [setF, h0, lookupF, h1, h]
      · simp [setF, h0, lookupF, h1, ih]

theorem getField_setField_ne (s : TVal) (k k' : String) (v : TVal) (h : k' ≠ k) :
    getField (setField s k v) k' = getField s k' := by
  cases s with
  | prim p => rfl
  | arr t l => rfl
  | obj t l => simpa [setField, getField] using lookupF_setF_ne l k k' v h

theorem getField_updArrField_ne (fieldName : String) (op : TVal → StR → TVal × StR)
    (s : TVal) (st : StR) (k' : String) (h : k' ≠ fieldName) :
    getField (updArrField fieldName op s st).1 k' = getField s k' := by
  unfold updArrField
  cases hg : getField s fieldName with
  | none => rfl
  | some w =>
    cases w with
    | prim p => rfl
    | obj t l => rfl
    | arr t l =>
      show getField (match op (.arr t l) st with
        | (v', st') => (setField s fieldName v', st')).1 k' = getField s k'
      rcases hop : op (.arr t l) st with ⟨v', st'⟩
      exact getField_setField_ne s fieldName k' v' h

theorem getField_updTwo_ne (k1 k2 : String) (result : TVal) (st0 : StR) (k' : String)
    (h1 : k' ≠ k1) (h2 : k' ≠ k2) :
    getField (updTwo k1 k2 result st0).1 k' = getField result k' := by
  unfold updTwo
  rw [getField_updArrField_ne _ _ _ _ _ h2, getField_updArrField_ne _ _ _ _ _ h1]

theorem lookupF_clone :
    ∀ (l : List (String × TVal)) (c : Nat) (k : String),
      (lookupF (cloneFlds l c).1 k).map strip = (lookupF l k).map strip := by
  intro l
  induction l with
  | nil => intro c k; rfl
  | cons kv t ih =>
    obtain ⟨k0, v0⟩ := kv
    intro c k
    rcases hv : cloneFresh v0 c with ⟨v', c'⟩
    rcases ht : cloneFlds t c' with ⟨t', c''⟩
    by_cases h0 : k0 = k
    · subst h0
      have hs : strip v' = strip v0 := by
        have := strip_cloneAll v0 c
        rw [hv] at this
        exact this
      simp [cloneFlds, hv, ht, lookupF, hs]
    · have := ih c' k
      rw [ht] at this
      simp [cloneFlds, hv, ht, lookupF, h0, this]

theorem getField_clone (v : TVal) (c : Nat) (k : String) :
    (getField (cloneFresh v c).1 k).map strip = (getField v k).map strip := by
  cases v with
  | prim p => rfl
  | arr t l =>
    rcases hl : cloneArr l (c + 1) with ⟨l', c'⟩
    simp [cloneFresh, hl, getField]
  | obj t l =>
    rcases hl : cloneFlds l (c + 1) with ⟨l', c'⟩
    have := lookupF_clone l (c + 1) k
    rw [hl] at this
    simpa [cloneFresh, hl, getField] using this

theorem truthy_strip {a b : TVal} (h : strip a = strip b) : truthy a = truthy b := by
  cases a <;> cases b <;> first | rfl | simp_all [strip, truthy]

theorem jsOr_strip {a1 a2 b1 b2 : Option TVal}
    (ha : a1.map strip = a2.map strip) (hb : b1.map strip = b2.map strip) :
    (jsOr a1 b1).map strip = (jsOr a2 b2).map strip := by
  cases a1 with
  | none =>
    cases a2 with
    | none => simpa [jsOr] using hb
    | some x => simp at ha
  | some x =>
    cases a2 with
    | none => simp at ha
    | some y =>
      simp only [Option.map_some'] at ha
      have hxy : strip x = strip y := by injection ha
      simp only [jsOr, truthy_strip hxy]
      by_cases ht : truthy y = true
      · simpa [ht] using ha
      · simp [ht, hb]

theorem tyIs_strip {a1 a2 : Option TVal} (h : a1.map strip = a2.map strip) (s : String) :
    tyIs a1 s = tyIs a2 s := by
  cases a1 with
  | none =>
    cases a2 with
    | none => rfl
    | some y => simp at h
  | some x =>
    cases a2 with
    | none => simp at h
    | some y =>
      simp only [Option.map_some'] at h
      have hxy : strip x = strip y := by injection h
      cases x <;> cases y <;> first | rfl | simp_all [strip, tyIs]

theorem isArr_strip {a1 a2 : Option TVal} (h : a1.map strip = a2.map strip) :
    isArr a1 = isArr a2 := by
  cases a1 with
  | none =>
    cases a2 with
    | none => rfl
    | some y => simp at h
  | some x =>
    cases a2 with
    | none => simp at h
    | some y =>
      simp only [Option.map_some'] at h
      have hxy : strip x = strip y := by injection h
      cases x <;> cases y <;> first | rfl | simp_all [strip, isArr]

theorem gameTy_clone (v : TVal) (c : Nat) :
    (gameTyOf (cloneFresh v c).1).map strip = (gameTyOf v).map strip := by
  unfold gameTyOf
  exact jsOr_strip (getField_clone v c "game_type") (getField_clone v c "gameType")

theorem shuffleKeysT_congr {a b : Option TVal} (h : ∀ s, tyIs a s = tyIs b s) :
    shuffleKeysT a = shuffleKeysT b := by
  simp only [shuffleKeysT, h]

theorem tyIs_unique {ty : Option TVal} {s s' : String} (h : tyIs ty s = true) (hne : s' ≠ s) :
    tyIs ty s' = false := by
  cases ty with
  | none => cases h
  | some x =>
    cases x with
    | prim p =>
      cases p with
      | str w =>
        simp only [tyIs, beq_iff_eq] at h
        subst h
        simp only [tyIs]
        exact beq_eq_false_iff_ne.mpr (fun hh => hne hh.symm)
      | num n => cases h
      | boolean b => cases h
      | nullv => cases h
    | arr t l => cases h
    | obj t l => cases h

theorem randomizeBody_frame (result : TVal) (st0 : StR) (k : String)
    (hk : k ∉ shuffleKeysT (gameTyOf result)) :
    getField (randomizeBody result st0).1 k = getField result k := by
  unfold randomizeBody
  split
  case isTrue hcond =>
    have hty := (by simpa [Bool.and_eq_true] using hcond : _ ∧ _).1
    have hkeys : shuffleKeysT (gameTyOf result) = ["sections"] := by
      unfold shuffleKeysT
      rw [if_pos hty]
    rw [hkeys] at hk
    simp only [List.mem_singleton] at hk
    exact getField_updArrField_ne _ _ _ _ _ hk
  case isFalse =>
    split
    case isTrue hcond =>
      have hty := (by simpa [Bool.and_eq_true] using hcond : _ ∧ _).1
      have h1 : tyIs (gameTyOf result) "escape_game" = false := tyIs_unique hty (by decide)
      have hkeys : shuffleKeysT (gameTyOf result) = ["sets"] := by
        unfold shuffleKeysT
        rw [if_neg (by simp [h1]), if_pos hty]
      rw [hkeys] at hk
      simp only [List.mem_singleton] at hk
      exact getField_updArrField_ne _ _ _ _ _ hk
    case isFalse =>
      split
      case isTrue hcond =>
        have hty := (by simpa [Bool.and_eq_true] using hcond : _ ∧ _).1
        have h1 : tyIs (gameTyOf result) "escape_game" = false := tyIs_unique hty (by decide)
        have h2 : tyIs (gameTyOf result) "matching_puzzle" = false := tyIs_unique hty (by decide)
        have hkeys : shuffleKeysT (gameTyOf result) = ["cards", "columns"] := by
          unfold shuffleKeysT
          rw [if_neg (by simp [h1]), if_neg (by simp [h2]), if_pos hty]
        rw [hkeys] at hk
        simp only [List.mem_cons, List.not_mem_nil, or_false, not_or] at hk
        exact getField_updTwo_ne _ _ _ _ _ hk.1 hk.2
      case isFalse =>
        split
        case isTrue hcond =>
          have hty := (by simpa [Bool.and_eq_true] using hcond : _ ∧ _).1
          have h1 : tyIs (gameTyOf result) "escape_game" = false := tyIs_unique hty (by decide)
          have h2 : tyIs (gameTyOf result) "matching_puzzle" = false := tyIs_unique hty (by decide)
          have h3 : tyIs (gameTyOf result) "sortier_spiel" = false := tyIs_unique hty (by decide)
          have hkeys : shuffleKeysT (gameTyOf result) = ["questions", "answerLabels"] := by
            unfold shuffleKeysT
            rw [if_neg (by simp [h1]), if_neg (by simp [h2]), if_neg (by simp [h3]), if_pos hty]
          rw [hkeys] at hk
          simp only [List.mem_cons, List.not_mem_nil, or_false, not_or] at hk
          exact getField_updTwo_ne _ _ _ _ _ hk.1 hk.2
        case isFalse =>
          split
          case isTrue hty =>
            have h1 : tyIs (gameTyOf result) "escape_game" = false := tyIs_unique hty (by decide)
            have h2 : tyIs (gameTyOf result) "matching_puzzle" = false := tyIs_unique hty (by decide)
            have h3 : tyIs (gameTyOf result) "sortier_spiel" = false := tyIs_unique hty (by decide)
            have h4 : tyIs (gameTyOf result) "quick_quiz" = false := tyIs_unique hty (by decide)
            have hkeys : shuffleKeysT (gameTyOf result) = ["legalForms", "questions"] := by
              unfold shuffleKeysT
              rw [if_neg (by simp [h1]), if_neg (by simp [h2]), if_neg (by simp [h3]),
                if_neg (by simp [h4]), if_pos hty]
            rw [hkeys] at hk
            simp only [List.mem_cons, List.not_mem_nil, or_false, not_or] at hk
            exact getField_updTwo_ne _ _ _ _ _ hk.1 hk.2
          case isFalse =>
            split
            case isTrue hcond =>
              have hty := (by simpa [Bool.and_eq_true] using hcond : _ ∧ _).1
              have h1 : tyIs (gameTyOf result) "escape_game" = false := tyIs_unique hty (by decide)
              have h2 : tyIs (gameTyOf result) "matching_puzzle" = false := tyIs_unique hty (by decide)
              have h3 : tyIs (gameTyOf result) "sortier_spiel" = false := tyIs_unique hty (by decide)
              have h4 : tyIs (gameTyOf result) "quick_quiz" = false := tyIs_unique hty (by decide)
              have h5 : tyIs (gameTyOf result) "wer_bin_ich" = false := tyIs_unique hty (by decide)
              have hkeys : shuffleKeysT (gameTyOf result) = ["cases"] := by
                unfold shuffleKeysT
                rw [if_neg (by simp [h1]), if_neg (by simp [h2]), if_neg (by simp [h3]),
                  if_neg (by simp [h4]), if_neg (by simp [h5]), if_pos hty]
              rw [hkeys] at hk
              simp only [List.mem_singleton] at hk
              exact getField_updArrField_ne _ _ _ _ _ hk
            case isFalse => rfl

/-- Top-level properties outside the shuffle table of the payload type
come out of the engine JSON-identical (the engine only ever reassigns the
listed properties of its clone). -/
theorem randomizePayload_frame (v : TVal) (st : StR) (k : String)
    (hk : k ∉ shuffleKeysT (gameTyOf v)) :
    (getField (randomizePayload v st).1 k).map strip = (getField v k).map strip := by
  unfold randomizePayload
  by_cases hobj : isObjLike v = false
  · rw [if_pos hobj]
  · rw [if_neg hobj]
    rcases hc : cloneFresh v st.1 with ⟨result, c'⟩
    show (getField (randomizeBody result (c', st.2)).1 k).map strip = (getField v k).map strip
    have hstrip : ∀ kk, (getField result kk).map strip = (getField v kk).map strip := by
      intro kk
      have hcl := getField_clone v st.1 kk
      rw [hc] at hcl
      exact hcl
    have htyeq : ∀ s, tyIs (gameTyOf result) s = tyIs (gameTyOf v) s := by
      intro s
      have hgt := gameTy_clone v st.1
      rw [hc] at hgt
      exact tyIs_strip hgt s
    have hkeys : shuffleKeysT (gameTyOf result) = shuffleKeysT (gameTyOf v) :=
      shuffleKeysT_congr htyeq
    rw [← hkeys] at hk
    rw [randomizeBody_frame result (c', st.2) k hk]
    exact hstrip k

/-! ### Claim C3: value preservation of randomization -/

theorem stripArr_eq_map : ∀ l : List TVal, stripArr l = l.map strip := by
  intro l
  induction l with
  | nil => rfl
  | cons v vs ih => simp [stripArr, ih]

theorem shuffleL_singleton {α : Type} (x : α) (st : StR) : shuffleL [x] st = ([x], st) := rfl

/-- The spec quiz-shuffle example, proved for every random supply: the
output still has exactly one section, of type quiz, with exactly one
question, whose options are a permutation of `["A", "B", "C"]`. -/
theorem quizABC_shape (st : StR) :
    ∃ opts : List Val,
      strip (randomizePayload quizABC st).1 =
        Val.obj [("game_type", .prim (.str "escape_game")),
          ("sections", .arr [
            .obj [("type", .prim (.str "quiz")),
              ("questions", .arr [.obj [("options", .arr opts)]])]])] ∧
      List.Perm opts [Val.prim (.str "A"), Val.prim (.str "B"), Val.prim (.str "C")] := by
  obtain ⟨c, r⟩ := st
  rcases hsh : shuffleL [TVal.prim (.str "A"), TVal.prim (.str "B"), TVal.prim (.str "C")]
    (c + 1 + 1 + 1 + 1 + 1 + 1 + 1 + 1 + 1 + 1 + 1, r) with ⟨L, stL⟩
  refine ⟨stripArr L, ?_, ?_⟩
  · simp [randomizePayload, quizABC, isObjLike, cloneFresh, cloneArr, cloneFlds,
      randomizeBody, gameTyOf, getField, lookupF, jsOr, truthy, tyIs, isArr,
      updArrField, shuffleMap, shuffleVal, freshTag, mapSt, escSection, escStep1,
      escStep2, escStep3, quizQ, setField, setF, typeIs, shuffleL_singleton, hsh,
      strip, stripArr, stripFlds]
  · have hperm := shuffleL_perm [TVal.prim (.str "A"), TVal.prim (.str "B"),
      TVal.prim (.str "C")] (c + 1 + 1 + 1 + 1 + 1 + 1 + 1 + 1 + 1 + 1 + 1, r)
    rw [hsh] at hperm
    have h2 : List.Perm (stripArr L)
        (stripArr [TVal.prim (.str "A"), TVal.prim (.str "B"), TVal.prim (.str "C")]) := by
      rw [stripArr_eq_map, stripArr_eq_map]
      exact hperm.map strip
    simpa [stripArr, strip] using h2

/-- C3 counterexample: for an `escape_game` payload whose single quiz
section holds a question with options `["A", "B"]`, random supply `[0]`
reverses the inner options, so the output `sections` array is not a
permutation of the input `sections` array (its single element changed).
The claim asserts every array selected for shuffling keeps the same
multiset of elements. -/
theorem claim_C3_counterexample :
    (getField (randomizePayload escTwo (10, [0])).1 "sections").map strip
        = some (.arr [escTwoSecOut]) ∧
    (getField escTwo "sections").map strip = some (.arr [escTwoSecIn]) ∧
    ¬ List.Perm [escTwoSecOut] [escTwoSecIn] := by
  refine ⟨rfl, rfl, ?_⟩
  intro hp
  have heq : escTwoSecOut = escTwoSecIn := by
    have hl := List.perm_singleton.mp hp
    injection hl with h1 _
  have hne : escTwoSecOut ≠ escTwoSecIn := val_ne_of_valBeq_false rfl
  exact hne heq

/-- C3 amended: the engine preserves the multiset of scalar leaves of the
whole payload (so every shuffled array keeps its leaf content, though an
array with nested shuffle targets need not keep its elements identical);
every top-level field outside the shuffle table of the payload type is
JSON-identical before and after; and the spec quiz example holds: the
output has exactly one quiz section with one question whose options are a
permutation of `["A", "B", "C"]`.  Stated for null-free payloads, on
which the JavaScript engine cannot throw. -/
theorem claim_C3_amended :
    (∀ (v : TVal) (st : StR), noNullT v = true →
      (leavesT (randomizePayload v st).1 : Multiset Prim) = (leavesT v : Multiset Prim)) ∧
    (∀ (v : TVal) (st : StR) (k : String), noNullT v = true →
      k ∉ shuffleKeysT (gameTyOf v) →
      (getField (randomizePayload v st).1 k).map strip = (getField v k).map strip) ∧
    (∀ st : StR, ∃ opts : List Val,
      strip (randomizePayload quizABC st).1 =
        Val.obj [("game_type", .prim (.str "escape_game")),
          ("sections", .arr [
            .obj [("type", .prim (.str "quiz")),
              ("questions", .arr [.obj [("options", .arr opts)]])]])] ∧
      List.Perm opts [Val.prim (.str "A"), Val.prim (.str "B"), Val.prim (.str "C")]) := by
  refine ⟨?_, ?_, quizABC_shape⟩
  · intro v st _
    exact Multiset.coe_eq_coe.mpr (randomizePayload_leaves v st)
  · intro v st k _ hk
    exact randomizePayload_frame v st k hk

theorem claim_C3_witness :
    noNullT storedQQ = true ∧
    "game_type" ∉ shuffleKeysT (gameTyOf storedQQ) ∧
    (leavesT (randomizePayload storedQQ (10, [0])).1 : Multiset Prim)
        = (leavesT storedQQ : Multiset Prim) ∧
    (getField (randomizePayload storedQQ (10, [0])).1 "game_type").map strip
        = (getField storedQQ "game_type").map strip :=
  ⟨by decide, by decide,
    claim_C3_amended.1 storedQQ (10, [0]) (by decide),
    claim_C3_amended.2.1 storedQQ (10, [0]) "game_type" (by decide) (by decide)⟩

/-! ### Claim C1: the sessionStorage cache path re-randomizes -/

/-- C1 counterexample: with a `quick_quiz` payload stored in
sessionStorage, the cache-hit branch of `_loadPayload` does not return
the stored value unchanged (random supply `[0]` swaps the questions),
and two activations over different random draws return different
payloads, so the second activation is not the identical cached instance:
the branch calls `_randomizePayload(parsed)` on every hit. -/
theorem claim_C1_counterexample :
    ((loadPayloadSession (some storedQQ) (10, [0])).map (fun x => strip x.1)
        ≠ some (strip storedQQ)) ∧
    ((loadPayloadSession (some storedQQ) (10, [0])).map (fun x => strip x.1)
        ≠ (loadPayloadSession (some storedQQ) (10, [1])).map (fun x => strip x.1)) := by
  have e0 : (loadPayloadSession (some storedQQ) (10, [0])).map (fun x => strip x.1)
      = some qqOut := rfl
  have e1 : (loadPayloadSession (some storedQQ) (10, [1])).map (fun x => strip x.1)
      = some qqIn := rfl
  have estr : strip storedQQ = qqIn := rfl
  have hne : qqOut ≠ qqIn := val_ne_of_valBeq_false rfl
  constructor
  · rw [e0, estr]
    intro h
    exact hne (by injection h)
  · rw [e0, e1]
    intro h
    exact hne (by injection h)

/-- C1 amended: when `_loadPayload` finds a parseable object payload in
sessionStorage it returns a fresh run of `_randomizePayload` over the
parsed value — a newly randomized deep copy that preserves the leaf
multiset of the stored payload, but not necessarily the previously
returned instance: a randomization is performed on every activation that
hits the cache. -/
theorem claim_C1_amended (p : TVal) (st : StR)
    (hobj : isObjLike p = true) (_hnn : noNullT p = true) :
    ∃ (out : TVal) (st' : StR),
      loadPayloadSession (some p) st = some (out, st') ∧
      (leavesT out : Multiset Prim) = (leavesT p : Multiset Prim) := by
  refine ⟨(randomizePayload p st).1, (randomizePayload p st).2, ?_, ?_⟩
  · simp [loadPayloadSession, hobj]
  · exact Multiset.coe_eq_coe.mpr (randomizePayload_leaves p st)

theorem claim_C1_witness :
    isObjLike storedQQ = true ∧ noNullT storedQQ = true ∧
    (∃ (out : TVal) (st' : StR),
      loadPayloadSession (some storedQQ) (10, [0]) = some (out, st') ∧
      (leavesT out : Multiset Prim) = (leavesT storedQQ : Multiset Prim)) :=
  ⟨rfl, by decide, claim_C1_amended storedQQ (10, [0]) rfl (by decide)⟩

/-! ### Claim C9: the engine output shares no node with its input -/

theorem tagsArr_mem : ∀ (l : List TVal) (t : Nat), t ∈ tagsArr l ↔ ∃ v ∈ l, t ∈ tagsT v := by
  intro l t
  induction l with
  | nil => simp [tagsArr]
  | cons v vs ih => simp [tagsArr, ih, List.mem_append]

theorem tagsFlds_mem : ∀ (l : List (String × TVal)) (t : Nat),
    t ∈ tagsFlds l ↔ ∃ kv ∈ l, t ∈ tagsT kv.2 := by
  intro l t
  induction l with
  | nil => simp [tagsFlds]
  | cons kv vs ih =>
    obtain ⟨k, v⟩ := kv
    simp [tagsFlds, ih, List.mem_append]

theorem cloneFresh_tags :
    ∀ v : TVal, ∀ c, c ≤ (cloneFresh v c).2 ∧ ∀ t ∈ tagsT (cloneFresh v c).1, c ≤ t := by
  have harr : ∀ (l : List TVal),
      (∀ v ∈ l, ∀ c, c ≤ (cloneFresh v c).2 ∧ ∀ t ∈ tagsT (cloneFresh v c).1, c ≤ t) →
      ∀ c, c ≤ (cloneArr l c).2 ∧ ∀ t ∈ tagsArr (cloneArr l c).1, c ≤ t := by
    intro l
    induction l with
    | nil => intro _ c; exact ⟨le_refl c, by simp [cloneArr, tagsArr]⟩
    | cons v vs ihl =>
      intro ih c
      rcases hv : cloneFresh v c with ⟨v', c'⟩
      rcases hvs : cloneArr vs c' with ⟨vs', c''⟩
      have h1 := ih v (by simp) c
      rw [hv] at h1
      have h2 := ihl (fun w hw => ih w (by simp [hw])) c'
      rw [hvs] at h2
      refine ⟨?_, ?_⟩
      · simp only [cloneArr, hv, hvs]
        omega
      · intro t ht
        simp only [cloneArr, hv, hvs, tagsArr, List.mem_append] at ht
        rcases ht with ht | ht
        · exact h1.2 t ht
        · exact le_trans h1.1 (h2.2 t ht)
  have hflds : ∀ (l : List (String × TVal)),
      (∀ kv ∈ l, ∀ c, c ≤ (cloneFresh kv.2 c).2 ∧ ∀ t ∈ tagsT (cloneFresh kv.2 c).1, c ≤ t) →
      ∀ c, c ≤ (cloneFlds l c).2 ∧ ∀ t ∈ tagsFlds (cloneFlds l c).1, c ≤ t := by
    intro l
    induction l with
    | nil => intro _ c; exact ⟨le_refl c, by simp [cloneFlds, tagsFlds]⟩
    | cons kv vs ihl =>
      obtain ⟨k, v⟩ := kv
      intro ih c
      rcases hv : cloneFresh v c with ⟨v', c'⟩
      rcases hvs : cloneFlds vs c' with ⟨vs', c''⟩
      have h1 := ih (k, v) (by simp) c
      rw [hv] at h1
      have h2 := ihl (fun w hw => ih w (by simp [hw])) c'
      rw [hvs] at h2
      refine ⟨?_, ?_⟩
      · simp only [cloneFlds, hv, hvs]
        omega
      · intro t ht
        simp only [cloneFlds, hv, hvs, tagsFlds, List.mem_append] at ht
        rcases ht with ht | ht
        · exact h1.2 t ht
        · exact le_trans h1.1 (h2.2 t ht)
  refine tval_ind ?_ ?_ ?_
  · intro p c
    exact ⟨le_refl c, by simp [cloneFresh, tagsT]⟩
  · intro tg l ih c
    rcases hl : cloneArr l (c + 1) with ⟨l', c'⟩
    have h := harr l ih (c + 1)
    rw [hl] at h
    refine ⟨?_, ?_⟩
    · simp only [cloneFresh, hl]
      omega
    · intro t ht
      simp only [cloneFresh, hl, tagsT, List.mem_cons] at ht
      rcases ht with rfl | ht
      · exact le_refl t
      · exact le_trans (Nat.le_succ c) (h.2 t ht)
  · intro tg l ih c
    rcases hl : cloneFlds l (c + 1) with ⟨l', c'⟩
    have h := hflds l ih (c + 1)
    rw [hl] at h
    refine ⟨?_, ?_⟩
    · simp only [cloneFresh, hl]
      omega
    · intro t ht
      simp only [cloneFresh, hl, tagsT, List.mem_cons] at ht
      rcases ht with rfl | ht
      · exact le_refl t
      · exact le_trans (Nat.le_succ c) (h.2 t ht)

theorem fyAux_state {α : Type} :
    ∀ (n : Nat) (a : List α) (st : StR), (fyAux a n st).2.1 = st.1 := by
  intro n
  induction n with
  | zero => intro a st; rfl
  | succ m ih =>
    intro a st
    rcases hd : draw (m + 2) st with ⟨j, st'⟩
    have h1 : st'.1 = st.1 := by
      rcases st with ⟨c, r⟩
      cases r with
      | nil => cases hd; rfl
      | cons k ks => cases hd; rfl
    have := ih (swapL a (m + 1) j) st'
    simp only [fyAux, hd]
    rw [this, h1]

theorem shuffleL_state {α : Type} (a : List α) (st : StR) : (shuffleL a st).2.1 = st.1 := by
  unfold shuffleL
  cases h : a.length with
  | zero => rfl
  | succ n => exact fyAux_state n a st

theorem shuffleVal_tagSpec : tagSpec shuffleVal := by
  intro v st
  cases v with
  | prim p => exact ⟨le_refl _, fun t ht => Or.inl ht⟩
  | obj tg l => exact ⟨le_refl _, fun t ht => Or.inl ht⟩
  | arr tg l =>
    rcases hs : shuffleL l (st.1 + 1, st.2) with ⟨l', st'⟩
    have hst : st'.1 = st.1 + 1 := by
      have := shuffleL_state l (st.1 + 1, st.2)
      rw [hs] at this
      exact this
    have hperm : List.Perm l' l := by
      have := shuffleL_perm l (st.1 + 1, st.2)
      rw [hs] at this
      exact this
    constructor
    · simp only [shuffleVal, freshTag, hs]
      omega
    · intro t ht
      simp only [shuffleVal, freshTag, hs, tagsT, List.mem_cons] at ht
      rcases ht with rfl | ht
      · exact Or.inr (le_refl _)
      · rcases (tagsArr_mem l' t).mp ht with ⟨w, hw, htw⟩
        exact Or.inl (by
          simp only [tagsT, List.mem_cons]
          exact Or.inr ((tagsArr_mem l t).mpr ⟨w, hperm.mem_iff.mp hw, htw⟩))

theorem mapSt_tags (f : TVal → StR → TVal × StR)
    (hf : ∀ (w : TVal) (st' : StR), st'.1 ≤ (f w st').2.1 ∧
      ∀ t ∈ tagsT (f w st').1, t ∈ tagsT w ∨ st'.1 ≤ t) :
    ∀ (l : List TVal) (st : StR), st.1 ≤ (mapSt f l st).2.1 ∧
      ∀ t ∈ tagsArr (mapSt f l st).1, t ∈ tagsArr l ∨ st.1 ≤ t := by
  intro l
  induction l with
  | nil => intro st; exact ⟨le_refl _, by simp [mapSt, tagsArr]⟩
  | cons v vs ih =>
    intro st
    rcases hv : f v st with ⟨v', st'⟩
    rcases hvs : mapSt f vs st' with ⟨vs', st''⟩
    have h1 := hf v st
    rw [hv] at h1
    have h2 := ih st'
    rw [hvs] at h2
    constructor
    · simp only [mapSt, hv, hvs]
      exact le_trans h1.1 h2.1
    · intro t ht
      simp only [mapSt, hv, hvs, tagsArr, List.mem_append] at ht
      rcases ht with ht | ht
      · rcases h1.2 t ht with h | h
        · exact Or.inl (by simp [tagsArr, List.mem_append, h])
        · exact Or.inr h
      · rcases h2.2 t ht with h | h
        · exact Or.inl (by simp [tagsArr, List.mem_append, h])
        · exact Or.inr (le_trans h1.1 h)

theorem setF_tags : ∀ (kvs : List (String × TVal)) (k : String) (v : TVal) (t : Nat),
    t ∈ tagsFlds (setF kvs k v) → t ∈ tagsFlds kvs ∨ t ∈ tagsT v := by
  intro kvs
  induction kvs with
  | nil => intro k v t ht; simp only [setF, tagsFlds, List.append_nil] at ht; exact Or.inr ht
  | cons kv tl ih =>
    obtain ⟨k0, v0⟩ := kv
    intro k v t ht
    by_cases h0 : k0 = k
    · simp only [setF, if_pos h0, tagsFlds, List.mem_append] at ht
      rcases ht with ht | ht
      · exact Or.inr ht
      · exact Or.inl (by simp [tagsFlds, List.mem_append, ht])
    · simp only [setF, if_neg h0, tagsFlds, List.mem_append] at ht
      rcases ht with ht | ht
      · exact Or.inl (by simp [tagsFlds, List.mem_append, ht])
      · rcases ih k v t ht with h | h
        · exact Or.inl (by simp [tagsFlds, List.mem_append, h])
        · exact Or.inr h

theorem setField_tags (s : TVal) (k : String) (v : TVal) (t : Nat)
    (ht : t ∈ tagsT (setField s k v)) : t ∈ tagsT s ∨ t ∈ tagsT v := by
  cases s with
  | prim p => exact Or.inl ht
  | arr tg l => exact Or.inl ht
  | obj tg l =>
    simp only [setField, tagsT, List.mem_cons] at ht
    rcases ht with rfl | ht
    · exact Or.inl (by simp [tagsT])
    · rcases setF_tags l k v t ht with h | h
      · exact Or.inl (by simp [tagsT, h])
      · exact Or.inr h

theorem lookupF_tags : ∀ (kvs : List (String × TVal)) (k : String) (w : TVal),
    lookupF kvs k = some w → ∀ t ∈ tagsT w, t ∈ tagsFlds kvs := by
  intro kvs
  induction kvs with
  | nil => intro k w h; cases h
  | cons kv tl ih =>
    obtain ⟨k0, v0⟩ := kv
    intro k w h t ht
    by_cases h0 : k0 = k
    · simp only [lookupF, if_pos h0] at h
      cases h
      simp [tagsFlds, List.mem_append, ht]
    · simp only [lookupF, if_neg h0] at h
      simp [tagsFlds, List.mem_append, ih k w h t ht]

theorem getField_tags (s : TVal) (k : String) (w : TVal)
    (h : getField s k = some w) : ∀ t ∈ tagsT w, t ∈ tagsT s := by
  cases s with
  | prim p => cases h
  | arr tg l => cases h
  | obj tg l =>
    intro t ht
    simp only [getField] at h
    simp [tagsT, lookupF_tags l k w h t ht]

theorem updArrField_tagSpec (fieldName : String) (op : TVal → StR → TVal × StR)
    (hop : tagSpec op) : tagSpec (updArrField fieldName op) := by
  intro s st
  unfold updArrField
  cases hg : getField s fieldName with
  | none => exact ⟨le_refl _, fun t ht => Or.inl ht⟩
  | some w =>
    cases w with
    | prim p => exact ⟨le_refl _, fun t ht => Or.inl ht⟩
    | obj tg l => exact ⟨le_refl _, fun t ht => Or.inl ht⟩
    | arr tg l =>
      show st.1 ≤ (match op (.arr tg l) st with
          | (v', st') => (setField s fieldName v', st')).2.1 ∧
        ∀ t ∈ tagsT (match op (.arr tg l) st with
          | (v', st') => (setField s fieldName v', st')).1, t ∈ tagsT s ∨ st.1 ≤ t
      rcases hov : op (.arr tg l) st with ⟨v', st'⟩
      have h1 := hop (.arr tg l) st
      rw [hov] at h1
      have h1a : st.1 ≤ st'.1 := h1.1
      have h1b : ∀ t ∈ tagsT v', t ∈ tagsT (TVal.arr tg l) ∨ st.1 ≤ t := h1.2
      refine ⟨h1a, ?_⟩
      intro t ht
      rcases setField_tags s fieldName v' t ht with h | h
      · exact Or.inl h
      · rcases h1b t h with h2 | h2
        · exact Or.inl (getField_tags s fieldName _ hg t h2)
        · exact Or.inr h2

theorem shuffleMap_tagSpec (f : TVal → StR → TVal × StR) (hf : tagSpec f) :
    tagSpec (shuffleMap f) := by
  intro v st
  unfold shuffleMap
  rcases hs : shuffleVal v st with ⟨sv, st'⟩
  have h1 := shuffleVal_tagSpec v st
  rw [hs] at h1
  have h1a : st.1 ≤ st'.1 := h1.1
  cases sv with
  | prim p => exact ⟨h1a, h1.2⟩
  | obj tg l => exact ⟨h1a, h1.2⟩
  | arr tg l =>
    have h1b : ∀ t ∈ tagsT (TVal.arr tg l), t ∈ tagsT v ∨ st.1 ≤ t := h1.2
    rcases hm : mapSt f l (st'.1 + 1, st'.2) with ⟨l', st''⟩
    have h2 := mapSt_tags f hf l (st'.1 + 1, st'.2)
    rw [hm] at h2
    have h2a : st'.1 + 1 ≤ st''.1 := h2.1
    have h2b : ∀ t ∈ tagsArr l', t ∈ tagsArr l ∨ st'.1 + 1 ≤ t := h2.2
    constructor
    · simp only [freshTag, hm]
      omega
    · intro t ht
      simp only [freshTag, hm, tagsT, List.mem_cons] at ht
      rcases ht with rfl | ht
      · exact Or.inr h1a
      · rcases h2b t ht with h | h
        · have htl : t ∈ tagsT (TVal.arr tg l) := by simp [tagsT, h]
          exact h1b t htl
        · exact Or.inr (by omega)

theorem quizQ_tagSpec : tagSpec quizQ := updArrField_tagSpec "options" shuffleVal shuffleVal_tagSpec

theorem capRow_tagSpec : tagSpec capRow := updArrField_tagSpec "options" shuffleVal shuffleVal_tagSpec

theorem wawOption_tagSpec : tagSpec wawOption := updArrField_tagSpec "whys" shuffleVal shuffleVal_tagSpec

theorem wawCase_tagSpec : tagSpec wawCase :=
  updArrField_tagSpec "options" (shuffleMap wawOption) (shuffleMap_tagSpec wawOption wawOption_tagSpec)

theorem escStep1_tagSpec : tagSpec escStep1 := by
  intro s st
  unfold escStep1
  by_cases hq : typeIs s "quiz" = true
  · rw [if_pos hq]
    exact updArrField_tagSpec "questions" (shuffleMap quizQ)
      (shuffleMap_tagSpec quizQ quizQ_tagSpec) s st
  · rw [if_neg hq]
    exact ⟨le_refl _, fun t ht => Or.inl ht⟩

theorem escStep2_spec (p : TVal × StR) :
    p.2.1 ≤ (escStep2 p).2.1 ∧ ∀ t ∈ tagsT (escStep2 p).1, t ∈ tagsT p.1 ∨ p.2.1 ≤ t := by
  unfold escStep2
  by_cases hq : typeIs p.1 "sort" = true
  · rw [if_pos hq]
    exact updArrField_tagSpec "sortCards" shuffleVal shuffleVal_tagSpec p.1 p.2
  · rw [if_neg hq]
    exact ⟨le_refl _, fun t ht => Or.inl ht⟩

theorem escStep3_spec (p : TVal × StR) :
    p.2.1 ≤ (escStep3 p).2.1 ∧ ∀ t ∈ tagsT (escStep3 p).1, t ∈ tagsT p.1 ∨ p.2.1 ≤ t := by
  unfold escStep3
  by_cases hq : typeIs p.1 "capital" = true
  · rw [if_pos hq]
    exact updArrField_tagSpec "rows" (shuffleMap capRow)
      (shuffleMap_tagSpec capRow capRow_tagSpec) p.1 p.2
  · rw [if_neg hq]
    exact ⟨le_refl _, fun t ht => Or.inl ht⟩

theorem escSection_tagSpec : tagSpec escSection := by
  intro s st
  unfold escSection
  have h1 := escStep1_tagSpec s st
  have h2 := escStep2_spec (escStep1 s st)
  have h3 := escStep3_spec (escStep2 (escStep1 s st))
  constructor
  · exact le_trans h1.1 (le_trans h2.1 h3.1)
  · intro t ht
    rcases h3.2 t ht with h | h
    · rcases h2.2 t h with h' | h'
      · rcases h1.2 t h' with h'' | h''
        · exact Or.inl h''
        · exact Or.inr h''
      · exact Or.inr (le_trans h1.1 h')
    · exact Or.inr (le_trans h1.1 (le_trans h2.1 h))

theorem updTwo_tagSpec (k1 k2 : String) : tagSpec (updTwo k1 k2) := by
  intro s st
  unfold updTwo
  have h1 := updArrField_tagSpec k1 shuffleVal shuffleVal_tagSpec s st
  have h2 := updArrField_tagSpec k2 shuffleVal shuffleVal_tagSpec
    (updArrField k1 shuffleVal s st).1 (updArrField k1 shuffleVal s st).2
  constructor
  · exact le_trans h1.1 h2.1
  · intro t ht
    rcases h2.2 t ht with h | h
    · rcases h1.2 t h with h' | h'
      · exact Or.inl h'
      · exact Or.inr h'
    · exact Or.inr (le_trans h1.1 h)

theorem randomizeBody_tags (result : TVal) (st0 : StR) :
    st0.1 ≤ (randomizeBody result st0).2.1 ∧
    ∀ t ∈ tagsT (randomizeBody result st0).1, t ∈ tagsT result ∨ st0.1 ≤ t := by
  unfold randomizeBody
  split
  · exact updArrField_tagSpec "sections" (shuffleMap escSection)
      (shuffleMap_tagSpec escSection escSection_tagSpec) result st0
  · split
    · exact updArrField_tagSpec "sets" shuffleVal shuffleVal_tagSpec result st0
    · split
      · exact updTwo_tagSpec "cards" "columns" result st0
      · split
        · exact updTwo_tagSpec "questions" "answerLabels" result st0
        · split
          · exact updTwo_tagSpec "legalForms" "questions" result st0
          · split
            · exact updArrField_tagSpec "cases" (shuffleMap wawCase)
                (shuffleMap_tagSpec wawCase wawCase_tagSpec) result st0
            · exact ⟨le_refl _, fun t ht => Or.inl ht⟩

/-- C9: for an object payload whose identity tags all lie below the
current allocation counter, every node of the engine output carries a
tag not occurring in the input: the returned payload is a structurally
independent deep copy sharing no object or array with the original, so
mutating it can never affect the input (null-free payloads; payloads with
tags below the counter model the real heap, where the input exists before
the call allocates). -/
theorem claim_C9 (v : TVal) (c : Nat) (r : List Nat)
    (_hnn : noNullT v = true) (hlt : ∀ t ∈ tagsT v, t < c) :
    ∀ t ∈ tagsT (randomizePayload v (c, r)).1, t ∉ tagsT v := by
  unfold randomizePayload
  by_cases hobj : isObjLike v = false
  · rw [if_pos hobj]
    intro t ht hmem
    cases v with
    | prim p => cases ht
    | arr tg l => simp [isObjLike] at hobj
    | obj tg l => simp [isObjLike] at hobj
  · rw [if_neg hobj]
    rcases hc : cloneFresh v c with ⟨result, c'⟩
    have hcl := cloneFresh_tags v c
    rw [hc] at hcl
    have hb := randomizeBody_tags result (c', r)
    intro t ht hmem
    have hge : c ≤ t := by
      rcases hb.2 t ht with h | h
      · exact hcl.2 t h
      · exact le_trans hcl.1 h
    exact absurd (hlt t hmem) (by omega)

theorem claim_C9_witness :
    noNullT storedQQ = true ∧ (∀ t ∈ tagsT storedQQ, t < 5) ∧
    ∀ t ∈ tagsT (randomizePayload storedQQ (5, [0])).1, t ∉ tagsT storedQQ :=
  ⟨by decide, by decide, claim_C9 storedQQ 5 [0] (by decide) (by decide)⟩

/-! ### Claims C4 and C5: ordering and pruning of the local builder -/

theorem cmpNatList_eq_iff : ∀ a b : List Nat, cmpNatList a b = .eq ↔ a = b := by
  intro a
  induction a with
  | nil =>
    intro b
    cases b with
    | nil => simp [cmpNatList]
    | cons y ys => simp [cmpNatList]
  | cons x xs ih =>
    intro b
    cases b with
    | nil => simp [cmpNatList]
    | cons y ys =>
      by_cases h1 : x < y
      · simp [cmpNatList, h1]
        omega
      · by_cases h2 : y < x
        · simp [cmpNatList, h1, h2]
          omega
        · have hxy : x = y := by omega
          subst hxy
          simp [cmpNatList, h1, h2, ih ys]

theorem cmpNatList_lt_trans :
    ∀ a b c : List Nat, cmpNatList a b = .lt → cmpNatList b c = .lt → cmpNatList a c = .lt := by
  intro a
  induction a with
  | nil =>
    intro b c hab hbc
    cases c with
    | nil =>
      cases b with
      | nil => cases hab
      | cons y ys => cases hbc
    | cons z zs => simp [cmpNatList]
  | cons x xs ih =>
    intro b c hab hbc
    cases b with
    | nil => cases hab
    | cons y ys =>
      cases c with
      | nil => cases hbc
      | cons z zs =>
        by_cases h1 : x < y
        · by_cases h2 : y < z
          · simp [cmpNatList]
            omega
          · by_cases h3 : z < y
            · simp [cmpNatList, h2, h3] at hbc
            · have : y = z := by omega
              subst this
              simp [cmpNatList, h1]
        · by_cases h1' : y < x
          · simp [cmpNatList, h1, h1'] at hab
          · have hxy : x = y := by omega
            subst hxy
            simp only [cmpNatList, if_neg h1, if_neg h1'] at hab
            by_cases h2 : x < z
            · simp [cmpNatList, h2]
            · by_cases h3 : z < x
              · simp [cmpNatList, h2, h3] at hbc
              · have : x = z := by omega
                subst this
                simp only [cmpNatList, if_neg h2, if_neg h3] at hbc ⊢
                exact ih ys zs hab hbc

theorem cmpNatList_swap : ∀ a b : List Nat, cmpNatList b a = (cmpNatList a b).swap := by
  intro a
  induction a with
  | nil =>
    intro b
    cases b with
    | nil => rfl
    | cons y ys => rfl
  | cons x xs ih =>
    intro b
    cases b with
    | nil => rfl
    | cons y ys =>
      by_cases h1 : x < y
      · have h2 : ¬ (y < x) := by omega
        simp [cmpNatList, h1, h2, Ordering.swap]
      · by_cases h2 : y < x
        · simp [cmpNatList, h1, h2, Ordering.swap]
        · simp [cmpNatList, h1, h2, ih ys]

theorem cmpNatList_le_trans {a b c : List Nat}
    (hab : cmpNatList a b ≠ .gt) (hbc : cmpNatList b c ≠ .gt) : cmpNatList a c ≠ .gt := by
  cases h1 : cmpNatList a b with
  | gt => exact absurd h1 hab
  | eq =>
    have : a = b := (cmpNatList_eq_iff a b).mp h1
    subst this
    exact hbc
  | lt =>
    cases h2 : cmpNatList b c with
    | gt => exact absurd h2 hbc
    | eq =>
      have : b = c := (cmpNatList_eq_iff b c).mp h2
      subst this
      simp [h1]
    | lt =>
      have := cmpNatList_lt_trans a b c h1 h2
      simp [this]

theorem entCmp_swap (a b : FsEntry) : entCmp b a = (entCmp a b).swap := by
  unfold entCmp natCmp
  by_cases da : isDirE a = true <;> by_cases db : isDirE b = true <;>
    simp [da, db, cmpNatList_swap (natKey (entName a)) (natKey (entName b)), Ordering.swap]

instance : IsTotal FsEntry entLe := by
  constructor
  intro a b
  unfold entLe
  cases h : entCmp a b with
  | lt => exact Or.inl (by simp)
  | eq => exact Or.inl (by simp)
  | gt =>
    right
    rw [entCmp_swap, h]
    simp [Ordering.swap]

instance : IsTrans FsEntry entLe := by
  constructor
  intro a b c hab hbc
  unfold entLe entCmp at hab hbc ⊢
  unfold natCmp at hab hbc ⊢
  by_cases da : isDirE a = true <;> by_cases db : isDirE b = true <;>
    by_cases dc : isDirE c = true <;>
    simp_all [cmpNatList_le_trans]
  · exact cmpNatList_le_trans hab hbc
  · exact cmpNatList_le_trans hab hbc

theorem attach_filterMap {α β : Type} (l : List α) (g : α → Option β) :
    l.attach.filterMap (fun e => g e.1) = l.filterMap g := by
  have h1 : l.attach.map Subtype.val = l := by
    simp
  calc l.attach.filterMap (fun e => g e.1)
      = List.filterMap (g ∘ Subtype.val) l.attach := rfl
    _ = List.filterMap g (l.attach.map Subtype.val) := (List.filterMap_map _ _ _).symm
    _ = l.filterMap g := by rw [h1]

theorem scanList_eq (pfx : String) (entries : List FsEntry) :
    scanList pfx entries = (List.insertionSort entLe entries).filterMap (scanEntry pfx) := by
  unfold scanList
  exact attach_filterMap _ _

theorem scanEntry_shape (pfx : String) (e : FsEntry) (n : Node)
    (h : scanEntry pfx e = some n) : nodeName n = entName e ∧ nodeIsFolder n = isDirE e := by
  cases e with
  | dir nm entries =>
    unfold scanEntry at h
    by_cases hh : strStartsWith nm "." = true
    · rw [if_pos hh] at h; cases h
    · rw [if_neg hh] at h
      by_cases he : (scanList (pfx ++ "/" ++ nm) entries).isEmpty = true
      · rw [if_pos he] at h; cases h
      · rw [if_neg he] at h
        cases h
        exact ⟨rfl, rfl⟩
  | fil nm content =>
    unfold scanEntry at h
    by_cases hh : strStartsWith nm "." = true
    · rw [if_pos hh] at h; cases h
    · rw [if_neg hh] at h
      cases hk : kindOfExtname nm with
      | none => rw [hk] at h; cases h
      | some k =>
        rw [hk] at h
        cases h
        exact ⟨rfl, rfl⟩

theorem scanEntry_le (pfx : String) {a b : FsEntry} (hab : entLe a b) {x y : Node}
    (hx : scanEntry pfx a = some x) (hy : scanEntry pfx b = some y) : nodeLeB x y = true := by
  obtain ⟨hnx, hfx⟩ := scanEntry_shape pfx a x hx
  obtain ⟨hny, hfy⟩ := scanEntry_shape pfx b y hy
  have hcmp : nodeCmp x y = entCmp a b := by
    unfold nodeCmp entCmp
    rw [hnx, hny, hfx, hfy]
  unfold nodeLeB
  rw [hcmp]
  unfold entLe at hab
  cases hO : entCmp a b with
  | lt => rfl
  | eq => rfl
  | gt => exact absurd hO hab

theorem adjOk_of_pairwise :
    ∀ {l : List Node}, List.Pairwise (fun x y => nodeLeB x y = true) l → adjOkB l = true := by
  intro l
  induction l with
  | nil => intro _; rfl
  | cons a t ih =>
    intro h
    cases t with
    | nil => rfl
    | cons b t' =>
      have h1 := (List.pairwise_cons.mp h).1 b (by simp)
      have h2 := ih (List.pairwise_cons.mp h).2
      simp [adjOkB, h1, h2]

theorem scanList_pairwise (pfx : String) (entries : List FsEntry) :
    List.Pairwise (fun x y => nodeLeB x y = true) (scanList pfx entries) := by
  rw [scanList_eq]
  have hs : List.Pairwise entLe (List.insertionSort entLe entries) :=
    List.sorted_insertionSort entLe entries
  refine List.pairwise_filterMap.mpr (hs.imp ?_)
  intro a b hab x hx y hy
  exact scanEntry_le pfx hab (Option.mem_def.mp hx) (Option.mem_def.mp hy)

theorem scanList_mem {pfx : String} {entries : List FsEntry} {n : Node}
    (h : n ∈ scanList pfx entries) : ∃ e ∈ entries, scanEntry pfx e = some n := by
  rw [scanList_eq] at h
  rcases List.mem_filterMap.mp h with ⟨e, he, hse⟩
  exact ⟨e, (List.perm_insertionSort entLe entries).subset he, hse⟩

theorem allTreeOrderedB_of {l : List Node} (h : ∀ n ∈ l, treeOrderedB n = true) :
    allTreeOrderedB l = true := by
  induction l with
  | nil => rfl
  | cons a t ih =>
    simp only [allTreeOrderedB, Bool.and_eq_true]
    exact ⟨h a (by simp), ih (fun m hm => h m (by simp [hm]))⟩

theorem allPrunedOkB_of {l : List Node} (h : ∀ n ∈ l, prunedOkB n = true) :
    allPrunedOkB l = true := by
  induction l with
  | nil => rfl
  | cons a t ih =>
    simp only [allPrunedOkB, Bool.and_eq_true]
    exact ⟨h a (by simp), ih (fun m hm => h m (by simp [hm]))⟩

theorem allLeafKindsB_of {l : List Node} (h : ∀ n ∈ l, leafKindsB n = true) :
    allLeafKindsB l = true := by
  induction l with
  | nil => rfl
  | cons a t ih =>
    simp only [allLeafKindsB, Bool.and_eq_true]
    exact ⟨h a (by simp), ih (fun m hm => h m (by simp [hm]))⟩

theorem scan_ordered_all :
    ∀ e : FsEntry, ∀ pfx n, scanEntry pfx e = some n → treeOrderedB n = true := by
  refine fs_ind ?_ ?_
  · intro nm entries IH pfx n h
    unfold scanEntry at h
    by_cases hh : strStartsWith nm "." = true
    · rw [if_pos hh] at h; cases h
    · rw [if_neg hh] at h
      by_cases he : (scanList (pfx ++ "/" ++ nm) entries).isEmpty = true
      · rw [if_pos he] at h; cases h
      · rw [if_neg he] at h
        cases h
        simp only [treeOrderedB, Bool.and_eq_true]
        refine ⟨adjOk_of_pairwise (scanList_pairwise _ entries), allTreeOrderedB_of ?_⟩
        intro m hm
        rcases scanList_mem hm with ⟨e, hee, hse⟩
        exact IH e hee _ m hse
  · intro nm c pfx n h
    unfold scanEntry at h
    by_cases hh : strStartsWith nm "." = true
    · rw [if_pos hh] at h; cases h
    · rw [if_neg hh] at h
      cases hk : kindOfExtname nm with
      | none => rw [hk] at h; cases h
      | some k => rw [hk] at h; cases h; rfl

theorem scan_pruned_all :
    ∀ e : FsEntry, ∀ pfx n, scanEntry pfx e = some n → prunedOkB n = true := by
  refine fs_ind ?_ ?_
  · intro nm entries IH pfx n h
    unfold scanEntry at h
    by_cases hh : strStartsWith nm "." = true
    · rw [if_pos hh] at h; cases h
    · rw [if_neg hh] at h
      by_cases he : (scanList (pfx ++ "/" ++ nm) entries).isEmpty = true
      · rw [if_pos he] at h; cases h
      · rw [if_neg he] at h
        cases h
        simp only [prunedOkB, Bool.and_eq_true]
        refine ⟨?_, allPrunedOkB_of ?_⟩
        · simpa [List.isEmpty_iff] using he
        · intro m hm
          rcases scanList_mem hm with ⟨e, hee, hse⟩
          exact IH e hee _ m hse
  · intro nm c pfx n h
    unfold scanEntry at h
    by_cases hh : strStartsWith nm "." = true
    · rw [if_pos hh] at h; cases h
    · rw [if_neg hh] at h
      cases hk : kindOfExtname nm with
      | none => rw [hk] at h; cases h
      | some k =>
        rw [hk] at h
        cases h
        simp [prunedOkB, hk]

theorem scan_kinds_all :
    ∀ e : FsEntry, ∀ pfx n, scanEntry pfx e = some n → leafKindsB n = true := by
  refine fs_ind ?_ ?_
  · intro nm entries IH pfx n h
    unfold scanEntry at h
    by_cases hh : strStartsWith nm "." = true
    · rw [if_pos hh] at h; cases h
    · rw [if_neg hh] at h
      by_cases he : (scanList (pfx ++ "/" ++ nm) entries).isEmpty = true
      · rw [if_pos he] at h; cases h
      · rw [if_neg he] at h
        cases h
        simp only [leafKindsB]
        refine allLeafKindsB_of ?_
        intro m hm
        rcases scanList_mem hm with ⟨e, hee, hse⟩
        exact IH e hee _ m hse
  · intro nm c pfx n h
    unfold scanEntry at h
    by_cases hh : strStartsWith nm "." = true
    · rw [if_pos hh] at h; cases h
    · rw [if_neg hh] at h
      cases hk : kindOfExtname nm with
      | none => rw [hk] at h; cases h
      | some k => rw [hk] at h; cases h; rfl

/-- C4: every sibling set of every tree built by the local scan is
ordered: folder nodes precede file nodes, and within each group names
compare by the case-insensitive, numeric-aware comparator; in particular
the name `Item 2` sorts before `Item 10`. -/
theorem claim_C4 :
    (∀ (pfx : String) (entries : List FsEntry), listOrderedB (scanList pfx entries) = true) ∧
    natCmp "Item 2" "Item 10" = .lt := by
  constructor
  · intro pfx entries
    simp only [listOrderedB, Bool.and_eq_true]
    refine ⟨adjOk_of_pairwise (scanList_pairwise pfx entries), allTreeOrderedB_of ?_⟩
    intro m hm
    rcases scanList_mem hm with ⟨e, hee, hse⟩
    exact scan_ordered_all e pfx m hse
  · decide

/-- C5: the local builder never emits a file node with an unrecognized
extension, and every folder node anywhere in the built tree has a
non-empty child list: a directory whose recursive result is empty is
omitted entirely and appears nowhere in the tree. -/
theorem claim_C5 (pfx : String) (entries : List FsEntry) :
    allPrunedOkB (scanList pfx entries) = true := by
  refine allPrunedOkB_of ?_
  intro m hm
  rcases scanList_mem hm with ⟨e, hee, hse⟩
  exact scan_pruned_all e pfx m hse

/-! ### Association-list and monadic helper lemmas for the flat builder -/

theorem exceptBind_ok {α β : Type} {x : Except Unit α} {g : α → Except Unit β} {b : β}
    (h : (x >>= g) = .ok b) : ∃ a, x = .ok a ∧ g a = .ok b := by
  cases x with
  | error e => exact absurd h (by simp [Bind.bind, Except.bind])
  | ok a =>
    refine ⟨a, rfl, ?_⟩
    simpa [Bind.bind, Except.bind] using h

theorem alookup_none_keys {m : List (List String × MapNode)} {k : List String} :
    alookup m k = none ↔ k ∉ m.map Prod.fst := by
  induction m with
  | nil => simp [alookup]
  | cons hd t ih =>
    by_cases hk : hd.1 = k
    · rw [alookup, if_pos hk]
      constructor
      · intro h
        cases h
      · intro h
        exact absurd (by
          rw [← hk]
          exact List.mem_map_of_mem Prod.fst (List.mem_cons_self _ _)) h
    · rw [alookup, if_neg hk, ih]
      simp only [List.map_cons, List.mem_cons, not_or]
      constructor
      · intro h
        exact ⟨fun he => hk he.symm, h⟩
      · intro h
        exact h.2

theorem alookup_some_mem {m : List (List String × MapNode)} {k : List String} {v : MapNode}
    (h : alookup m k = some v) : (k, v) ∈ m := by
  induction m with
  | nil => cases h
  | cons hd t ih =>
    by_cases hk : hd.1 = k
    · rw [alookup, if_pos hk] at h
      injection h with h1
      rw [← h1, ← hk]
      exact List.mem_cons_self _ _
    · rw [alookup, if_neg hk] at h
      exact List.mem_cons_of_mem _ (ih h)

theorem alookup_of_mem_nodup {m : List (List String × MapNode)} {kn : List String × MapNode}
    (hn : (m.map Prod.fst).Nodup) (h : kn ∈ m) : alookup m kn.1 = some kn.2 := by
  induction m with
  | nil => cases h
  | cons hd t ih =>
    rcases List.mem_cons.mp h with h1 | h1
    · rw [h1, alookup, if_pos rfl]
    · have hne : hd.1 ≠ kn.1 := by
        intro he
        have : kn.1 ∈ t.map Prod.fst := List.mem_map_of_mem Prod.fst h1
        rw [← he] at this
        exact (List.nodup_cons.mp hn).1 this
      rw [alookup, if_neg hne]
      exact ih (List.nodup_cons.mp hn).2 h1

theorem alookup_append_some {m m' : List (List String × MapNode)} {k : List String}
    {v : MapNode} (h : alookup m k = some v) : alookup (m ++ m') k = some v := by
  induction m with
  | nil => cases h
  | cons hd t ih =>
    by_cases hk : hd.1 = k
    · rw [alookup, if_pos hk] at h
      rw [List.cons_append, alookup, if_pos hk]
      exact h
    · rw [alookup, if_neg hk] at h
      rw [List.cons_append, alookup, if_neg hk]
      exact ih h

theorem alookup_append_none {m m' : List (List String × MapNode)} {k : List String}
    (h : alookup m k = none) : alookup (m ++ m') k = alookup m' k := by
  induction m with
  | nil => rfl
  | cons hd t ih =>
    by_cases hk : hd.1 = k
    · rw [alookup, if_pos hk] at h
      cases h
    · rw [alookup, if_neg hk] at h
      rw [List.cons_append, alookup, if_neg hk]
      exact ih h

theorem aupdate_keys (m : List (List String × MapNode)) (k : List String) (v : MapNode) :
    (aupdate m k v).map Prod.fst = m.map Prod.fst := by
  induction m with
  | nil => rfl
  | cons hd t ih =>
    by_cases hk : hd.1 = k
    · rw [aupdate, if_pos hk]
      simp
    · rw [aupdate, if_neg hk]
      simp [ih]

theorem mem_aupdate {m : List (List String × MapNode)} {k : List String} {v : MapNode}
    {kn : List String × MapNode} (h : kn ∈ aupdate m k v) : kn ∈ m ∨ kn = (k, v) := by
  induction m with
  | nil => cases h
  | cons hd t ih =>
    by_cases hk : hd.1 = k
    · rw [aupdate, if_pos hk] at h
      rcases List.mem_cons.mp h with h1 | h1
      · right
        rw [h1, hk]
      · left
        exact List.mem_cons_of_mem _ h1
    · rw [aupdate, if_neg hk] at h
      rcases List.mem_cons.mp h with h1 | h1
      · left
        rw [h1]
        exact List.mem_cons_self _ _
      · rcases ih h1 with h2 | h2
        · exact Or.inl (List.mem_cons_of_mem _ h2)
        · exact Or.inr h2

theorem alookup_aupdate_ne {m : List (List String × MapNode)} {k k' : List String}
    (v : MapNode) (h : k' ≠ k) : alookup (aupdate m k v) k' = alookup m k' := by
  induction m with
  | nil => rfl
  | cons hd t ih =>
    by_cases hk : hd.1 = k
    · rw [aupdate, if_pos hk, alookup, alookup, if_neg (by rw [hk]; exact fun he => h he.symm),
        if_neg (by rw [hk]; exact fun he => h he.symm)]
    · rw [aupdate, if_neg hk]
      by_cases hk' : hd.1 = k'
      · rw [alookup, if_pos hk', alookup, if_pos hk']
      · rw [alookup, if_neg hk', alookup, if_neg hk']
        exact ih

theorem alookup_aupdate_self {m : List (List String × MapNode)} {k : List String}
    {w : MapNode} (v : MapNode) (h : alookup m k = some w) :
    alookup (aupdate m k v) k = some v := by
  induction m with
  | nil => cases h
  | cons hd t ih =>
    by_cases hk : hd.1 = k
    · rw [aupdate, if_pos hk, alookup, if_pos hk]
    · rw [alookup, if_neg hk] at h
      rw [aupdate, if_neg hk, alookup, if_neg hk]
      exact ih h

theorem take_succ_dropLast {α : Type} (l : List α) (i : Nat) (h : i < l.length) :
    (l.take (i + 1)).dropLast = l.take i := by
  induction l generalizing i with
  | nil => simp at h
  | cons hd t ih =>
    cases i with
    | zero => simp
    | succ j =>
      have hj : j < t.length := by simpa using h
      have ht : t.take (j + 1) ≠ [] := by
        refine List.length_pos.mp ?_
        rw [List.length_take]
        omega
      simp only [List.take_succ_cons, List.dropLast_cons_of_ne_nil ht]
      rw [ih j hj]

theorem length_take_of_le {α : Type} {l : List α} {n : Nat} (h : n ≤ l.length) :
    (l.take n).length = n := by
  simp [List.length_take]
  omega

/-! ### Branch equations of the flat builder -/

theorem pushChild_sent {st : BState} {p : List String} (c : List String)
    (hp : p = ["database"]) :
    pushChild st p c = .ok { st with root := st.root ++ [c] } := by
  simp [pushChild, hp]

theorem pushChild_noparent {st : BState} {p : List String} (c : List String)
    (hp : p ≠ ["database"]) (hl : alookup st.map p = none) :
    pushChild st p c = .ok st := by
  simp [pushChild, hp, hl]

theorem pushChild_folder {st : BState} {p : List String} {nd : MapNode}
    {cs : List (List String)} (c : List String) (hp : p ≠ ["database"])
    (hl : alookup st.map p = some nd) (hch : nd.children = some cs) :
    pushChild st p c =
      .ok { st with map := aupdate st.map p { nd with children := some (cs ++ [c]) } } := by
  simp [pushChild, hp, hl, hch]

theorem pushChild_file {st : BState} {p : List String} {nd : MapNode}
    (c : List String) (hp : p ≠ ["database"]) (hl : alookup st.map p = some nd)
    (hch : nd.children = none) : pushChild st p c = .error () := by
  simp [pushChild, hp, hl, hch]

theorem stepSeg_eq {e : GEntry} {parts : List String} {st : BState} {i : Nat}
    (hkf : hasKey st (parts.take (i + 1)) = false) :
    stepSeg e parts st i =
      pushChild { st with map := st.map ++ [(parts.take (i + 1), ndDef e parts i)] }
        (parts.take i) (parts.take (i + 1)) := by
  simp [stepSeg, ndDef, hkf]

theorem stepSeg_spec {e : GEntry} {parts : List String} {st st' : BState} {i : Nat}
    (hparts : parts = splitPath e.path) (hip : i < parts.length)
    (hc : InvCore st) (hpar : 1 ≤ i → hasKey st (parts.take i) = true)
    (h : stepSeg e parts st i = .ok st') :
    InvCore st' ∧
    (∀ k, hasKey st k = true → hasKey st' k = true) ∧
    hasKey st' (parts.take (i + 1)) = true ∧
    (∀ L, e ∈ L → RecordB L st → RecordB L st') := by
  obtain ⟨hnd, hsent, hI1, hE⟩ := hc
  by_cases hk : hasKey st (parts.take (i + 1)) = true
  · have hs : stepSeg e parts st i = .ok st := by
      simp [stepSeg, hk]
    rw [hs] at h
    injection h with h1
    subst h1
    exact ⟨⟨hnd, hsent, hI1, hE⟩, fun k hk' => hk', hk, fun L _ hr => hr⟩
  · have hkf : hasKey st (parts.take (i + 1)) = false := by
      cases hfb : hasKey st (parts.take (i + 1))
      · rfl
      · exact absurd hfb hk
    have hcsent : parts.take (i + 1) ≠ ["database"] := by
      intro he
      rw [hasKey, if_pos he] at hkf
      cases hkf
    have hknone : alookup st.map (parts.take (i + 1)) = none := by
      have h2 := hkf
      rw [hasKey, if_neg hcsent] at h2
      cases hlk : alookup st.map (parts.take (i + 1)) with
      | none => rfl
      | some w =>
        rw [hlk] at h2
        simp at h2
    rw [stepSeg_eq hkf] at h
    have hlen1 : (parts.take (i + 1)).length = i + 1 := length_take_of_le (by omega)
    have hleni : (parts.take i).length = i := length_take_of_le (by omega)
    have hptne : parts.take i ≠ parts.take (i + 1) := by
      intro he
      have h2 := congrArg List.length he
      rw [hlen1, hleni] at h2
      omega
    have hdl : (parts.take (i + 1)).dropLast = parts.take i := take_succ_dropLast _ _ hip
    have hmem1 : ∀ kn : List String × MapNode,
        kn ∈ st.map ++ [(parts.take (i + 1), ndDef e parts i)] →
        kn ∈ st.map ∨ kn = (parts.take (i + 1), ndDef e parts i) := by
      intro kn hkn
      rcases List.mem_append.mp hkn with h1 | h1
      · exact Or.inl h1
      · exact Or.inr (List.mem_singleton.mp h1)
    have hndI1 : (ndDef e parts i).children.isSome = (ndDef e parts i).isFolder ∧
        ((ndDef e parts i).isFolder = false →
          (ndDef e parts i).kind = kindOfExtPop (ndDef e parts i).name) := by
      cases hf : (e.ty == "tree") || decide (i + 1 < parts.length) <;>
        simp [ndDef, hf]
    have hnd1 : ((st.map ++ [(parts.take (i + 1), ndDef e parts i)]).map Prod.fst).Nodup := by
      rw [List.map_append]
      refine List.Nodup.append hnd (List.nodup_singleton _) ?_
      intro a ha hb
      rw [List.map_singleton, List.mem_singleton] at hb
      subst hb
      exact (alookup_none_keys.mp hknone) ha
    have hI1m : ∀ kn ∈ st.map ++ [(parts.take (i + 1), ndDef e parts i)],
        kn.2.children.isSome = kn.2.isFolder ∧
        (kn.2.isFolder = false → kn.2.kind = kindOfExtPop kn.2.name) := by
      intro kn hkn
      rcases hmem1 kn hkn with h1 | h1
      · exact hI1 kn h1
      · rw [h1]
        exact hndI1
    have hsentm : ∀ kn ∈ st.map ++ [(parts.take (i + 1), ndDef e parts i)],
        kn.1 ≠ ["database"] := by
      intro kn hkn
      rcases hmem1 kn hkn with h1 | h1
      · exact hsent kn h1
      · rw [h1]
        exact hcsent
    have hlk1 : alookup (st.map ++ [(parts.take (i + 1), ndDef e parts i)])
        (parts.take (i + 1)) = some (ndDef e parts i) := by
      rw [alookup_append_none hknone, alookup, if_pos rfl]
    have hrec1 : ∀ L, e ∈ L → RecordB L st →
        ∀ kn : List String × MapNode,
          (kn ∈ st.map ∨ kn = (parts.take (i + 1), ndDef e parts i)) →
          ∃ e' ∈ L, ∃ j, j < (splitPath e'.path).length ∧
            kn.1 = (splitPath e'.path).take (j + 1) ∧
            kn.2.name = (splitPath e'.path).getD j "" ∧
            kn.2.isFolder = ((e'.ty == "tree") || decide (j + 1 < (splitPath e'.path).length)) := by
      intro L hL hr kn hkn
      rcases hkn with h1 | h1
      · exact hr kn h1
      · refine ⟨e, hL, i, ?_, ?_, ?_, ?_⟩
        · rw [← hparts]
          exact hip
        · rw [h1, ← hparts]
        · rw [h1, ← hparts]
          simp [ndDef]
        · rw [h1, ← hparts]
          simp [ndDef]
    have main1 : ∀ S : BState, S.map = st.map ++ [(parts.take (i + 1), ndDef e parts i)] →
        (2 ≤ i + 1 → parts.take i = ["database"] ∨
          ∃ ndx, alookup (st.map ++ [(parts.take (i + 1), ndDef e parts i)]) (parts.take i)
            = some ndx ∧ ndx.isFolder = true) →
        InvCore S ∧ (∀ k, hasKey st k = true → hasKey S k = true) ∧
        hasKey S (parts.take (i + 1)) = true ∧
        (∀ L, e ∈ L → RecordB L st → RecordB L S) := by
      intro S hSm hEnew
      refine ⟨⟨?_, ?_, ?_, ?_⟩, ?_, ?_, ?_⟩
      · rw [hSm]
        exact hnd1
      · rw [hSm]
        exact hsentm
      · rw [hSm]
        exact hI1m
      · rw [hSm]
        intro kn hkn hlen
        rcases hmem1 kn hkn with h1 | h1
        · rcases hE kn h1 hlen with h2 | ⟨ndf, hndf, hff⟩
          · exact Or.inl h2
          · exact Or.inr ⟨ndf, alookup_append_some hndf, hff⟩
        · subst h1
          dsimp only at hlen ⊢
          rw [hlen1] at hlen
          rw [hdl]
          rcases hEnew hlen with h2 | ⟨ndx, hnx, hfx⟩
          · exact Or.inl h2
          · exact Or.inr ⟨ndx, hnx, hfx⟩
      · intro k hkk
        unfold hasKey at hkk ⊢
        rw [hSm]
        by_cases hks : k = ["database"]
        · rw [if_pos hks]
        · rw [if_neg hks] at hkk ⊢
          cases hlk : alookup st.map k with
          | none =>
            rw [hlk] at hkk
            simp at hkk
          | some w =>
            rw [alookup_append_some hlk]
            rfl
      · unfold hasKey
        rw [hSm]
        by_cases hks : parts.take (i + 1) = ["database"]
        · rw [if_pos hks]
        · rw [if_neg hks, hlk1]
          rfl
      · intro L hL hr
        unfold RecordB
        rw [hSm]
        intro kn hkn
        exact hrec1 L hL hr kn (hmem1 kn hkn)
    by_cases hpb : parts.take i = ["database"]
    · rw [pushChild_sent _ hpb] at h
      injection h with h1
      refine main1 st' ?_ ?_
      · rw [← h1]
      · intro _
        exact Or.inl hpb
    · cases hlp : alookup (st.map ++ [(parts.take (i + 1), ndDef e parts i)]) (parts.take i) with
      | none =>
        rw [pushChild_noparent _ hpb hlp] at h
        injection h with h1
        have hi0 : i = 0 := by
          by_contra hne
          have hi1 : 1 ≤ i := by omega
          rcases (by
            have h2 := hpar hi1
            rw [hasKey] at h2
            by_cases hps : parts.take i = ["database"]
            · exact Or.inl hps
            · rw [if_neg hps] at h2
              cases hlk : alookup st.map (parts.take i) with
              | none =>
                rw [hlk] at h2
                simp at h2
              | some w => exact Or.inr ⟨w, rfl⟩ :
            parts.take i = ["database"] ∨
              ∃ w, alookup st.map (parts.take i) = some w) with h2 | ⟨w, hw⟩
          · exact hpb h2
          · rw [alookup_append_some hw] at hlp
            cases hlp
        refine main1 st' ?_ ?_
        · rw [← h1]
        · intro h2
          exact absurd h2 (by omega)
      | some ndp =>
        cases hch : ndp.children with
        | none =>
          rw [pushChild_file _ hpb hlp hch] at h
          cases h
        | some cs =>
          rw [pushChild_folder _ hpb hlp hch] at h
          injection h with h1
          have hmap3 : st'.map = aupdate (st.map ++ [(parts.take (i + 1), ndDef e parts i)])
              (parts.take i)
              { ndp with children := some (cs ++ [parts.take (i + 1)]) } := by
            rw [← h1]
          have hmemp : (parts.take i, ndp) ∈ st.map := by
            have h2 := alookup_some_mem hlp
            rcases hmem1 _ h2 with h3 | h3
            · exact h3
            · exact absurd (congrArg Prod.fst h3) hptne
          have hfoldp : ndp.isFolder = true := by
            have h2 := (hI1m _ (alookup_some_mem hlp)).1
            dsimp only at h2
            rw [hch] at h2
            exact h2.symm
          have hpres : ∀ (k : List String) (ndx : MapNode),
              alookup (st.map ++ [(parts.take (i + 1), ndDef e parts i)]) k = some ndx →
              ∃ nd', alookup (aupdate (st.map ++ [(parts.take (i + 1), ndDef e parts i)])
                  (parts.take i)
                  { ndp with children := some (cs ++ [parts.take (i + 1)]) }) k = some nd' ∧
                nd'.isFolder = ndx.isFolder ∧ nd'.kind = ndx.kind ∧ nd'.name = ndx.name := by
            intro k ndx hkx
            by_cases hkp : k = parts.take i
            · subst hkp
              rw [hlp] at hkx
              injection hkx with h2
              subst h2
              exact ⟨_, alookup_aupdate_self _ hlp, rfl, rfl, rfl⟩
            · exact ⟨ndx, by rw [alookup_aupdate_ne _ hkp]; exact hkx, rfl, rfl, rfl⟩
          have hmem3 : ∀ kn : List String × MapNode,
              kn ∈ aupdate (st.map ++ [(parts.take (i + 1), ndDef e parts i)]) (parts.take i)
                { ndp with children := some (cs ++ [parts.take (i + 1)]) } →
              kn ∈ st.map ∨ kn = (parts.take (i + 1), ndDef e parts i) ∨
                kn = (parts.take i,
                  { ndp with children := some (cs ++ [parts.take (i + 1)]) }) := by
            intro kn hkn
            rcases mem_aupdate hkn with h2 | h2
            · rcases hmem1 kn h2 with h3 | h3
              · exact Or.inl h3
              · exact Or.inr (Or.inl h3)
            · exact Or.inr (Or.inr h2)
          refine ⟨⟨?_, ?_, ?_, ?_⟩, ?_, ?_, ?_⟩
          · rw [hmap3, aupdate_keys]
            exact hnd1
          · rw [hmap3]
            intro kn hkn
            rcases hmem3 kn hkn with h3 | h3 | h3
            · exact hsent kn h3
            · rw [h3]
              exact hcsent
            · rw [h3]
              exact hpb
          · rw [hmap3]
            intro kn hkn
            rcases hmem3 kn hkn with h3 | h3 | h3
            · exact hI1 kn h3
            · rw [h3]
              exact hndI1
            · subst h3
              dsimp only
              constructor
              · simp [hfoldp]
              · intro hf
                rw [hfoldp] at hf
                cases hf
          · rw [hmap3]
            intro kn hkn hlen
            rcases hmem3 kn hkn with h3 | h3 | h3
            · rcases hE kn h3 hlen with h4 | ⟨ndf, hndf, hff⟩
              · exact Or.inl h4
              · obtain ⟨nd', hnd', hfeq, _, _⟩ := hpres _ _ (alookup_append_some hndf)
                refine Or.inr ⟨nd', hnd', ?_⟩
                rw [hfeq]
                exact hff
            · subst h3
              dsimp only at hlen ⊢
              rw [hdl]
              exact Or.inr ⟨_, alookup_aupdate_self _ hlp, hfoldp⟩
            · subst h3
              dsimp only at hlen ⊢
              rcases hE _ hmemp hlen with h4 | ⟨ndf, hndf, hff⟩
              · exact Or.inl h4
              · obtain ⟨nd', hnd', hfeq, _, _⟩ := hpres _ _ (alookup_append_some hndf)
                refine Or.inr ⟨nd', hnd', ?_⟩
                rw [hfeq]
                exact hff
          · intro k hkk
            unfold hasKey at hkk ⊢
            rw [hmap3]
            by_cases hks : k = ["database"]
            · rw [if_pos hks]
            · rw [if_neg hks] at hkk ⊢
              cases hlk : alookup st.map k with
              | none =>
                rw [hlk] at hkk
                simp at hkk
              | some w =>
                obtain ⟨nd', hnd', _, _, _⟩ := hpres _ _ (alookup_append_some hlk)
                rw [hnd']
                rfl
          · unfold hasKey
            rw [hmap3]
            by_cases hks : parts.take (i + 1) = ["database"]
            · rw [if_pos hks]
            · obtain ⟨nd', hnd', _, _, _⟩ := hpres _ _ hlk1
              rw [if_neg hks, hnd']
              rfl
          · intro L hL hr
            unfold RecordB
            rw [hmap3]
            intro kn hkn
            rcases hmem3 kn hkn with h3 | h3 | h3
            · exact hrec1 L hL hr kn (Or.inl h3)
            · exact hrec1 L hL hr kn (Or.inr h3)
            · subst h3
              obtain ⟨e', he', j, hj, hkey, hname, hfold⟩ := hr _ hmemp
              exact ⟨e', he', j, hj, hkey, hname, hfold⟩

theorem entLoop_spec {e : GEntry} {parts : List String} (hparts : parts = splitPath e.path) :
    ∀ n, n ≤ parts.length → ∀ st st', InvCore st →
      (List.range n).foldlM (fun s i => stepSeg e parts s i) st = .ok st' →
      InvCore st' ∧ (∀ k, hasKey st k = true → hasKey st' k = true) ∧
      (∀ j, 1 ≤ j → j ≤ n → hasKey st' (parts.take j) = true) ∧
      (∀ L, e ∈ L → RecordB L st → RecordB L st') := by
  intro n
  induction n with
  | zero =>
    intro _ st st' hc h
    simp only [List.range_zero, List.foldlM_nil] at h
    have h' : (Except.ok st : Except Unit BState) = Except.ok st' := h
    injection h' with h1
    subst h1
    exact ⟨hc, fun k hk => hk, fun j hj1 hj0 => absurd hj0 (by omega), fun L _ hr => hr⟩
  | succ n ih =>
    intro hn st st' hc h
    rw [List.range_succ, List.foldlM_append] at h
    rcases exceptBind_ok h with ⟨mid, hmid, hstep⟩
    have hstep2 : stepSeg e parts mid n = .ok st' := by
      simpa only [List.foldlM_cons, List.foldlM_nil, bind_pure] using hstep
    obtain ⟨hcm, hmonom, hprefm, hrecm⟩ := ih (by omega) st mid hc hmid
    have hparm : 1 ≤ n → hasKey mid (parts.take n) = true :=
      fun h1 => hprefm n h1 (le_refl n)
    obtain ⟨hcs, hmons, hkeys, hrecs⟩ := stepSeg_spec hparts (by omega) hcm hparm hstep2
    refine ⟨hcs, fun k hk => hmons k (hmonom k hk), ?_,
      fun L hL hr => hrecs L hL (hrecm L hL hr)⟩
    intro j hj1 hjn
    by_cases hje : j = n + 1
    · rw [hje]
      exact hkeys
    · exact hmons _ (hprefm j hj1 (by omega))

theorem processEntry_spec {e : GEntry} {st st' : BState} {L : List GEntry}
    (hc : InvCore st) (hr : RecordB L st) (hp : PrefixP L st)
    (h : processEntry st e = .ok st') :
    InvCore st' ∧ RecordB (L ++ [e]) st' ∧ PrefixP (L ++ [e]) st' := by
  have h2 : (List.range (splitPath e.path).length).foldlM
      (fun s i => stepSeg e (splitPath e.path) s i) st = .ok st' := by
    simpa [processEntry] using h
  obtain ⟨hcs, hmono, hpref, hrec⟩ :=
    entLoop_spec rfl (splitPath e.path).length (le_refl _) st st' hc h2
  refine ⟨hcs, ?_, ?_⟩
  · have hrL : RecordB (L ++ [e]) st := by
      intro kn hkn
      obtain ⟨e', he', rest⟩ := hr kn hkn
      exact ⟨e', List.mem_append_left _ he', rest⟩
    exact hrec (L ++ [e]) (List.mem_append_right _ (List.mem_singleton.mpr rfl)) hrL
  · intro e' he' j hj
    rcases List.mem_append.mp he' with h3 | h3
    · exact hmono _ (hp e' h3 j hj)
    · rw [List.mem_singleton] at h3
      subst h3
      exact hpref (j + 1) (by omega) (by omega)

theorem buildFold_spec :
    ∀ (l : List GEntry) (st st' : BState) (L : List GEntry),
      InvCore st → RecordB L st → PrefixP L st →
      l.foldlM processEntry st = .ok st' →
      InvCore st' ∧ RecordB (L ++ l) st' ∧ PrefixP (L ++ l) st' := by
  intro l
  induction l with
  | nil =>
    intro st st' L hc hr hp h
    simp only [List.foldlM_nil] at h
    have h' : (Except.ok st : Except Unit BState) = Except.ok st' := h
    injection h' with h1
    subst h1
    exact ⟨hc, by simpa using hr, by simpa using hp⟩
  | cons e t ih =>
    intro st st' L hc hr hp h
    simp only [List.foldlM_cons] at h
    rcases exceptBind_ok h with ⟨mid, hmid, hrest⟩
    obtain ⟨hc1, hr1, hp1⟩ := processEntry_spec hc hr hp hmid
    obtain ⟨hc2, hr2, hp2⟩ := ih mid st' (L ++ [e]) hc1 hr1 hp1 hrest
    rw [List.append_assoc] at hr2 hp2
    exact ⟨hc2, by simpa using hr2, by simpa using hp2⟩

theorem build_spec {l : List GEntry} {st : BState}
    (h : buildTreeFromFlatList l = .ok st) :
    InvCore st ∧ RecordB l st ∧ PrefixP l st := by
  have h0 : InvCore { root := [], map := [] } :=
    ⟨List.nodup_nil, fun kn hkn => absurd hkn (List.not_mem_nil kn),
     fun kn hkn => absurd hkn (List.not_mem_nil kn),
     fun kn hkn => absurd hkn (List.not_mem_nil kn)⟩
  obtain ⟨hc, hr, hp⟩ := buildFold_spec l { root := [], map := [] } st [] h0
    (fun kn hkn => absurd hkn (List.not_mem_nil kn))
    (fun e2 he2 => absurd he2 (List.not_mem_nil e2))
    (by simpa [buildTreeFromFlatList] using h)
  exact ⟨hc, by simpa using hr, by simpa using hp⟩

theorem flat_kind {l : List GEntry} {st : BState} (h : buildTreeFromFlatList l = .ok st) :
    ∀ kn ∈ st.map, kn.2.isFolder = false → kn.2.kind = kindOfExtPop kn.2.name := by
  intro kn hkn hf
  exact ((build_spec h).1.2.2.1 kn hkn).2 hf

theorem flat_classified {l : List GEntry} {st : BState}
    (hnodup : (l.map (fun e => splitPath e.path)).Nodup)
    (h : buildTreeFromFlatList l = .ok st) :
    ∀ kn ∈ st.map,
      (kn.2.isFolder = true ↔
        (∃ e ∈ l, e.ty = "tree" ∧ splitPath e.path = kn.1) ∨
        ∃ e ∈ l, ∃ j, j + 1 < (splitPath e.path).length ∧
          kn.1 = (splitPath e.path).take (j + 1)) := by
  obtain ⟨⟨hnd, hsent, hI1, hE⟩, hrec, hpref⟩ := build_spec h
  intro kn hkn
  constructor
  · intro hf
    obtain ⟨e, he, i, hi, hkey, hname, hfold⟩ := hrec kn hkn
    by_cases hfin : i + 1 < (splitPath e.path).length
    · exact Or.inr ⟨e, he, i, hfin, hkey⟩
    · have hlen : i + 1 = (splitPath e.path).length := by omega
      have htree : e.ty = "tree" := by
        rw [hf] at hfold
        have h2 : decide (i + 1 < (splitPath e.path).length) = false := by
          simp [hfin]
        rw [h2, Bool.or_false] at hfold
        exact eq_of_beq hfold.symm
      have hkeq : kn.1 = splitPath e.path := by
        rw [hkey, hlen, List.take_length]
      exact Or.inl ⟨e, he, htree, hkeq.symm⟩
  · intro hcase
    by_contra hff
    have hf : kn.2.isFolder = false := by
      cases hb : kn.2.isFolder with
      | false => rfl
      | true => exact absurd hb hff
    rcases hcase with ⟨e, he, htree, hpe⟩ | ⟨e, he, j, hj, hpe⟩
    · obtain ⟨e', he', i, hi, hkey, hname, hfold⟩ := hrec kn hkn
      rw [hf] at hfold
      have h2 : (e'.ty == "tree") = false ∧
          decide (i + 1 < (splitPath e'.path).length) = false := by
        have h3 := hfold.symm
        rw [Bool.or_eq_false_iff] at h3
        exact h3
      have hlen' : i + 1 = (splitPath e'.path).length := by
        have h4 := of_decide_eq_false h2.2
        omega
      have hkeq : kn.1 = splitPath e'.path := by
        rw [hkey, hlen', List.take_length]
      have hee : e = e' := by
        have h5 : splitPath e.path = splitPath e'.path := by
          rw [hpe, hkeq]
        exact List.inj_on_of_nodup_map hnodup he he' h5
      rw [← hee, htree] at h2
      simp at h2
    · have hh := hpref e he (j + 1) hj
      rw [hasKey] at hh
      have hknotsent : (splitPath e.path).take (j + 2) ≠ ["database"] := by
        intro he2
        have h3 := congrArg List.length he2
        rw [length_take_of_le (by omega)] at h3
        simp only [List.length_cons, List.length_nil] at h3
        omega
      rw [if_neg hknotsent] at hh
      cases hlk : alookup st.map ((splitPath e.path).take (j + 2)) with
      | none =>
        rw [hlk] at hh
        simp at hh
      | some ndc =>
        have hmemc := alookup_some_mem hlk
        have hlenc : 2 ≤ ((splitPath e.path).take (j + 2)).length := by
          rw [length_take_of_le (by omega)]
          omega
        rcases hE _ hmemc hlenc with h3 | ⟨ndf, hndf, hff2⟩
        · dsimp only at h3
          rw [take_succ_dropLast _ _ (by omega)] at h3
          refine hsent kn hkn ?_
          rw [hpe]
          exact h3
        · dsimp only at hndf
          rw [take_succ_dropLast _ _ (by omega)] at hndf
          have h4 := alookup_of_mem_nodup hnd hkn
          rw [hpe] at h4
          rw [h4] at hndf
          injection hndf with h5
          rw [← h5] at hff2
          exact hff hff2

/-- C2 counterexample: on a listing containing the blob
`database/a.txt`, the flat builder emits a tree whose single node is a
file and carries no `kind` (the extension `txt` is outside the
vocabulary, but the node is emitted all the same), so it is not true that
every non-folder node of every built tree carries a kind. -/
theorem claim_C2_counterexample :
    (buildTreeFromFlatList flatTxtInput).map (fun st => flatResult st 2) =
      .ok [Node.file "database/a.txt" "a.txt" none none] ∧
    allLeafKindsB [Node.file "database/a.txt" "a.txt" none none] = false := by
  constructor
  · rfl
  · rfl

/-- C2 amended: every tree built by the local scan has a kind on every
non-folder node; the flat builder instead assigns each file node exactly
`kindOfExtPop` of its name, which is `none` for extensions outside the
vocabulary, so its leaves carry a kind only when their extension is
recognized. -/
theorem claim_C2_amended :
    (∀ (pfx : String) (entries : List FsEntry),
      allLeafKindsB (scanList pfx entries) = true) ∧
    (∀ (l : List GEntry) (st : BState), buildTreeFromFlatList l = .ok st →
      ∀ kn ∈ st.map, kn.2.isFolder = false → kn.2.kind = kindOfExtPop kn.2.name) := by
  constructor
  · intro pfx entries
    refine allLeafKindsB_of ?_
    intro m hm
    rcases scanList_mem hm with ⟨m2, hm2, hse⟩
    exact scan_kinds_all m2 pfx m hse
  · intro l st h
    exact flat_kind h

theorem claim_C2_amended_witness :
    allLeafKindsB (scanList "database" [FsEntry.fil "a.json" none]) = true ∧
    ({ id := "database/a.txt", name := "a.txt", isFolder := false, kind := none,
       children := none } : MapNode).kind = kindOfExtPop "a.txt" := by
  constructor
  · exact claim_C2_amended.1 "database" [FsEntry.fil "a.json" none]
  · exact claim_C2_amended.2 flatTxtInput stTxt rfl
      (["database", "a.txt"],
        { id := "database/a.txt", name := "a.txt", isFolder := false, kind := none,
          children := none })
      (by decide) rfl

/-- C6: on any successful run over a listing of pairwise distinct paths,
the flat builder creates at most one node per distinct path prefix (the
deduplication keys are distinct), classifies a node as a folder exactly
when some processed entry of exactly that path has type `tree` or the
path is a non-final segment prefix of some processed path, and gives a
file node `kindOfExtPop` of its name as kind; on the filtered spec
example input the result is the single child `database/x.json` of kind
`json`, `isFolder` false, and no eagerly attached data. -/
theorem claim_C6 :
    (∀ (l : List GEntry) (st : BState),
      (l.map (fun e => splitPath e.path)).Nodup →
      buildTreeFromFlatList l = .ok st →
      (st.map.map Prod.fst).Nodup ∧
      (∀ kn ∈ st.map,
        (kn.2.isFolder = true ↔
          (∃ e ∈ l, e.ty = "tree" ∧ splitPath e.path = kn.1) ∨
          ∃ e ∈ l, ∃ j, j + 1 < (splitPath e.path).length ∧
            kn.1 = (splitPath e.path).take (j + 1)) ∧
        (kn.2.isFolder = false → kn.2.kind = kindOfExtPop kn.2.name))) ∧
    (buildTreeFromFlatList (githubFilter flatExampleInput)).map (fun st => flatResult st 3) =
      .ok [Node.file "database/x.json" "x.json" (some "json") none] := by
  constructor
  · intro l st hnodup h
    refine ⟨(build_spec h).1.1, ?_⟩
    intro kn hkn
    exact ⟨flat_classified hnodup h kn hkn, ((build_spec h).1.2.2.1 kn hkn).2⟩
  · rfl

theorem claim_C6_witness :
    (stXJson.map.map Prod.fst).Nodup ∧
    buildTreeFromFlatList (githubFilter flatExampleInput) = .ok stXJson := by
  constructor
  · exact (claim_C6.1 (githubFilter flatExampleInput) stXJson (by decide) rfl).1
  · rfl
